import Mathlib

/-!
Verification of the JD-to-Resume Matching & Scoring Engine ("the Engine")
of the bank.ai recruiting backend.

The Python sources are shallowly embedded:
* Python `dict` values are modelled as insertion-ordered association lists
  with the usual first-key-wins lookup and in-place update.
* Python `float` values are modelled as their exact dyadic rationals and each
  `float` operation as IEEE-754 `binary64` round-to-nearest-even at 53
  significant bits (`roundDouble`); Python 3's `round` is round-half-to-even
  (`pyRound`).  The exponent is unbounded, which is faithful below the
  `float` overflow threshold `2^1024`, where CPython raises `OverflowError`
  instead of returning a number.
* Python integers are `ℤ` (or `ℕ` where the source only produces
  non-negative values).
-/

namespace BankAI

/-! ### Python dict primitives (insertion-ordered association lists) -/

/-- Lookup in a Python dict: first (and only) binding of the key. -/
def dget {κ β : Type} [DecidableEq κ] : List (κ × β) → κ → Option β
  | [], _ => none
  | (k', v) :: rest, k => if k' = k then some v else dget rest k

/-- Python dict assignment `m[k] = v`: update in place if present, else append. -/
def dset {κ β : Type} [DecidableEq κ] : List (κ × β) → κ → β → List (κ × β)
  | [], k, v => [(k, v)]
  | (k', v') :: rest, k, v =>
      if k' = k then (k, v) :: rest else (k', v') :: dset rest k v

/-- Python `m[k] += 1` on a dict of counters (the key is always present at the
call sites in the source; on an absent key this is the identity). -/
def dincr {κ : Type} [DecidableEq κ] : List (κ × ℕ) → κ → List (κ × ℕ)
  | [], _ => []
  | (k', v) :: rest, k =>
      if k' = k then (k', v + 1) :: rest else (k', v) :: dincr rest k

theorem dget_dincr {κ : Type} [DecidableEq κ] (m : List (κ × ℕ)) (a k : κ) :
    dget (dincr m a) k = if k = a then (dget m k).map (· + 1) else dget m k := by
  induction m with
  | nil => simp [dincr, dget]
  | cons p rest ih =>
    obtain ⟨k', v⟩ := p
    by_cases h1 : k' = a
    · subst h1
      by_cases h2 : k' = k
      · subst h2; simp [dincr, dget]
      · have h2' : ¬k = k' := fun hh => h2 hh.symm
        simp [dincr, dget, h2, h2']
    · by_cases h2 : k' = k
      · subst h2
        have h1' : ¬k' = a := h1
        simp [dincr, dget, h1, h1']
      · simp [dincr, dget, h1, h2, ih]

theorem keys_dincr {κ : Type} [DecidableEq κ] (m : List (κ × ℕ)) (a : κ) :
    (dincr m a).map Prod.fst = m.map Prod.fst := by
  induction m with
  | nil => rfl
  | cons p rest ih =>
    obtain ⟨k', v⟩ := p
    by_cases h : k' = a <;> simp [dincr, h, ih]

theorem vsum_dincr {κ : Type} [DecidableEq κ] (m : List (κ × ℕ)) (a : κ)
    (ha : a ∈ m.map Prod.fst) :
    ((dincr m a).map Prod.snd).sum = (m.map Prod.snd).sum + 1 := by
  induction m with
  | nil => simp at ha
  | cons p rest ih =>
    obtain ⟨k', v⟩ := p
    by_cases h : k' = a
    · simp [dincr, h, Nat.add_assoc, Nat.add_comm, Nat.add_left_comm]
    · have ha' : a ∈ rest.map Prod.fst := by
        simp at ha
        rcases ha with h1 | h1
        · exact absurd h1.symm h
        · simpa using h1
      simp [dincr, h, ih ha', Nat.add_assoc]

theorem dget_dset_self {κ β : Type} [DecidableEq κ] (m : List (κ × β)) (k : κ) (v : β) :
    dget (dset m k v) k = some v := by
  induction m with
  | nil => simp [dset, dget]
  | cons p rest ih =>
    obtain ⟨k', v'⟩ := p
    by_cases h : k' = k <;> simp [dset, dget, h, ih]

theorem dget_dset_ne {κ β : Type} [DecidableEq κ] (m : List (κ × β)) (k k2 : κ) (v : β)
    (h : k2 ≠ k) : dget (dset m k v) k2 = dget m k2 := by
  have h' : ∀ x : κ, x = k → ¬x = k2 := fun _ hx hx2 => h (hx2 ▸ hx)
  induction m with
  | nil => simp [dset, dget, h' k rfl]
  | cons p rest ih =>
    obtain ⟨k', v'⟩ := p
    by_cases h1 : k' = k
    · subst h1
      simp [dset, dget, h' k' rfl]
    · simp [dset, dget, h1, ih]

/-- On a fresh key, Python dict assignment appends at the end. -/
theorem dset_absent {κ β : Type} [DecidableEq κ] (m : List (κ × β)) (k : κ) (v : β)
    (h : k ∉ m.map Prod.fst) : dset m k v = m ++ [(k, v)] := by
  induction m with
  | nil => rfl
  | cons p rest ih =>
    obtain ⟨k', v'⟩ := p
    simp only [List.map_cons, List.mem_cons, not_or] at h
    simp [dset, Ne.symm h.1, ih h.2]

/-! ### `backend/src/services/scoring_v2.py` — the Deterministic Scorer -/

/-- Round half to even: the tie-breaking rule shared by Python 3's `round`
and by IEEE-754 round-to-nearest. -/
def pyRoundAux (f : ℤ) (r : ℚ) : ℤ :=
  if r < 1/2 then f
  else if 1/2 < r then f + 1
  else if f % 2 = 0 then f else f + 1

/-- Python 3's `round` to an integer (round half to even). -/
def pyRound (q : ℚ) : ℤ :=
  pyRoundAux (q.num / q.den) (q - ((q.num / q.den : ℤ) : ℚ))

theorem pyRound_eq_aux (q : ℚ) : pyRound q = pyRoundAux ⌊q⌋ (q - (⌊q⌋ : ℚ)) := by
  rw [Rat.floor_def]; rfl

/-- IEEE-754 `binary64` rounding of an exact value: keep 53 significant bits,
ties to even.  The exponent is unbounded (see the module comment: below the
overflow threshold this is exactly CPython's `float` arithmetic). -/
def roundDouble (q : ℚ) : ℚ :=
  if q = 0 then 0
  else
    (if q < 0 then (-1 : ℚ) else 1) *
      pyRound (|q| / 2 ^ (Int.log 2 |q| - 52)) * 2 ^ (Int.log 2 |q| - 52)

/-- `CONFIDENCE_MULTIPLIERS` — the locked confidence → multiplier table.
The values are the Python `float` literals `0.90`, `0.65`, `0.35`, `0.00`,
written as their exact `binary64` values
(`(0.9).as_integer_ratio() == (8106479329266893, 2**53)`, etc.). -/
def CONFIDENCE_MULTIPLIERS : List (String × ℚ) :=
  [("high", 8106479329266893 / 2 ^ 53),
   ("medium", 5854679515581645 / 2 ^ 53),
   ("low", 3152519739159347 / 2 ^ 53),
   ("none", 0)]

/-- Python `str.lower()` (character-wise, ASCII-relevant here). -/
def pyLower (s : String) : String := ⟨s.data.map Char.toLower⟩

/-- Python `str.strip()`: drop leading and trailing whitespace. -/
def pyStrip (s : String) : String :=
  ⟨((s.data.dropWhile Char.isWhitespace).reverse.dropWhile Char.isWhitespace).reverse⟩

/-- `score_dimension(confidence, max_points)`: `(confidence or "none")` maps the
empty string to `"none"`; the label is stripped and lowercased, looked up in
the multiplier table with default `0.0`.  `max_points * mult` converts the
int to a `float` (one rounding) and multiplies (one more rounding); Python's
`round` then rounds the `float` half-to-even to an integer. -/
def score_dimension (confidence : String) (max_points : ℤ) : ℤ :=
  let conf := pyLower (pyStrip (if confidence = "" then "none" else confidence))
  let mult := (dget CONFIDENCE_MULTIPLIERS conf).getD 0
  pyRound (roundDouble (roundDouble (max_points : ℚ) * mult))

/-- `score_breakdown(confidence_by_dimension, weights)`: one entry per weight
key, confidence defaulting to `"none"` for dimensions absent from the
confidence map. -/
def score_breakdown (confidence_by_dimension : List (String × String))
    (weights : List (String × ℤ)) : List (String × ℤ) :=
  weights.map fun p =>
    (p.1, score_dimension ((dget confidence_by_dimension p.1).getD "none") p.2)

/-- `score_total(breakdown)`: sum of the contributions clamped to `[0, 100]`. -/
def score_total (breakdown : List (String × ℤ)) : ℤ :=
  max 0 (min 100 ((breakdown.map Prod.snd).sum))

theorem pyRoundAux_ge (f : ℤ) (r : ℚ) : f ≤ pyRoundAux f r := by
  unfold pyRoundAux
  split
  · exact le_refl _
  · split
    · exact le_of_lt (lt_add_one _)
    · split
      · exact le_refl _
      · exact le_of_lt (lt_add_one _)

theorem pyRound_floor_le (q : ℚ) : ⌊q⌋ ≤ pyRound q := by
  rw [pyRound_eq_aux]
  exact pyRoundAux_ge _ _

theorem pyRound_le_ceil (q : ℚ) : pyRound q ≤ ⌈q⌉ := by
  rw [pyRound_eq_aux]
  unfold pyRoundAux
  by_cases hfr : q - (⌊q⌋ : ℚ) < 1/2
  · simp only [if_pos hfr]
    exact Int.floor_le_ceil q
  · have hne : (⌊q⌋ : ℚ) ≠ q := by
      intro h
      rw [← h] at hfr
      norm_num at hfr
    have hlt : (⌊q⌋ : ℚ) < q := lt_of_le_of_ne (Int.floor_le q) hne
    have hceil : ⌊q⌋ + 1 ≤ ⌈q⌉ := by
      have := Int.lt_ceil.mpr hlt
      omega
    simp only [if_neg hfr]
    split
    · exact hceil
    · split
      · exact le_trans (Int.floor_le_ceil q) (by omega)
      · exact hceil

theorem pyRound_nonneg (q : ℚ) (h : 0 ≤ q) : 0 ≤ pyRound q := by
  have : (0 : ℤ) ≤ ⌊q⌋ := Int.floor_nonneg.mpr h
  exact le_trans this (pyRound_floor_le q)

theorem pyRound_zero : pyRound 0 = 0 := by
  rw [pyRound_eq_aux]; norm_num [pyRoundAux]

theorem pyRound_intCast (n : ℤ) : pyRound (n : ℚ) = n := by
  rw [pyRound_eq_aux, Int.floor_intCast]
  unfold pyRoundAux
  rw [sub_self]
  norm_num

theorem pyRound_le_add_half (q : ℚ) : (pyRound q : ℚ) ≤ q + 1/2 := by
  rw [pyRound_eq_aux]
  unfold pyRoundAux
  have hf := Int.floor_le q
  split_ifs with h1 h2 h3 <;> push_cast <;> linarith

theorem pyRound_ge_sub_half (q : ℚ) : q - 1/2 ≤ (pyRound q : ℚ) := by
  rw [pyRound_eq_aux]
  unfold pyRoundAux
  have hf := Int.floor_le q
  have hf1 : q < (⌊q⌋ : ℚ) + 1 := Int.lt_floor_add_one q
  split_ifs with h1 h2 h3 <;> push_cast <;> linarith

theorem roundDouble_zero : roundDouble 0 = 0 := by
  simp [roundDouble]

theorem roundDouble_nonneg (q : ℚ) (h : 0 ≤ q) : 0 ≤ roundDouble q := by
  rcases eq_or_lt_of_le h with h0 | h0
  · rw [← h0, roundDouble_zero]
  · unfold roundDouble
    rw [if_neg (ne_of_gt h0), if_neg (not_lt.mpr h0.le), one_mul]
    have hcpos : (0 : ℚ) < 2 ^ (Int.log 2 |q| - 52) := zpow_pos (by norm_num) _
    have hs : (0 : ℚ) ≤ |q| / 2 ^ (Int.log 2 |q| - 52) :=
      div_nonneg (abs_nonneg q) hcpos.le
    have hr : (0 : ℤ) ≤ pyRound (|q| / 2 ^ (Int.log 2 |q| - 52)) :=
      pyRound_nonneg _ hs
    have : (0 : ℚ) ≤ (pyRound (|q| / 2 ^ (Int.log 2 |q| - 52)) : ℚ) := by
      exact_mod_cast hr
    exact mul_nonneg this hcpos.le

theorem roundDouble_le (q : ℚ) (h : 0 < q) :
    roundDouble q ≤ q * (1 + 1/2 ^ 53) := by
  unfold roundDouble
  rw [if_neg (ne_of_gt h), if_neg (not_lt.mpr h.le), one_mul, abs_of_pos h]
  set e : ℤ := Int.log 2 q with he
  have hcpos : (0 : ℚ) < 2 ^ (e - 52) := zpow_pos (by norm_num) _
  have h1 : (pyRound (q / 2 ^ (e - 52)) : ℚ) ≤ q / 2 ^ (e - 52) + 1/2 :=
    pyRound_le_add_half _
  have h2 : (pyRound (q / 2 ^ (e - 52)) : ℚ) * 2 ^ (e - 52) ≤
      (q / 2 ^ (e - 52) + 1/2) * 2 ^ (e - 52) :=
    mul_le_mul_of_nonneg_right h1 hcpos.le
  have h3 : (q / 2 ^ (e - 52) + 1/2) * 2 ^ (e - 52) = q + 2 ^ (e - 52) / 2 := by
    field_simp
    ring
  have hze : (2 : ℚ) ^ e ≤ q := Int.zpow_log_le_self (by norm_num) h
  have h4 : (2 : ℚ) ^ (e - 52) / 2 ≤ q / 2 ^ 53 := by
    have hsplit : (2 : ℚ) ^ (e - 52) / 2 = 2 ^ e / 2 ^ (53 : ℕ) := by
      rw [zpow_sub₀ (by norm_num : (2:ℚ) ≠ 0), div_div]
      norm_num
    rw [hsplit]
    exact div_le_div_of_nonneg_right hze (by positivity)
  calc (pyRound (q / 2 ^ (e - 52)) : ℚ) * 2 ^ (e - 52) ≤
      q + 2 ^ (e - 52) / 2 := by rw [← h3]; exact h2
    _ ≤ q + q / 2 ^ 53 := by linarith
    _ = q * (1 + 1/2 ^ 53) := by ring

theorem roundDouble_ge (q : ℚ) (h : 0 < q) :
    q * (1 - 1/2 ^ 53) ≤ roundDouble q := by
  unfold roundDouble
  rw [if_neg (ne_of_gt h), if_neg (not_lt.mpr h.le), one_mul, abs_of_pos h]
  set e : ℤ := Int.log 2 q with he
  have hcpos : (0 : ℚ) < 2 ^ (e - 52) := zpow_pos (by norm_num) _
  have h1 : q / 2 ^ (e - 52) - 1/2 ≤ (pyRound (q / 2 ^ (e - 52)) : ℚ) :=
    pyRound_ge_sub_half _
  have h2 : (q / 2 ^ (e - 52) - 1/2) * 2 ^ (e - 52) ≤
      (pyRound (q / 2 ^ (e - 52)) : ℚ) * 2 ^ (e - 52) :=
    mul_le_mul_of_nonneg_right h1 hcpos.le
  have h3 : (q / 2 ^ (e - 52) - 1/2) * 2 ^ (e - 52) = q - 2 ^ (e - 52) / 2 := by
    field_simp
    ring
  have hze : (2 : ℚ) ^ e ≤ q := Int.zpow_log_le_self (by norm_num) h
  have h4 : (2 : ℚ) ^ (e - 52) / 2 ≤ q / 2 ^ 53 := by
    have hsplit : (2 : ℚ) ^ (e - 52) / 2 = 2 ^ e / 2 ^ (53 : ℕ) := by
      rw [zpow_sub₀ (by norm_num : (2:ℚ) ≠ 0), div_div]
      norm_num
    rw [hsplit]
    exact div_le_div_of_nonneg_right hze (by positivity)
  calc q * (1 - 1/2 ^ 53) = q - q / 2 ^ 53 := by ring
    _ ≤ q - 2 ^ (e - 52) / 2 := by linarith
    _ = (q / 2 ^ (e - 52) - 1/2) * 2 ^ (e - 52) := h3.symm
    _ ≤ _ := h2

/-- Evaluate `roundDouble` at a concrete positive value whose binary exponent
`e ≤ 52` is supplied together with the rounded 53-bit significand. -/
theorem roundDouble_eq_concrete (q : ℚ) (e : ℕ) (n : ℤ)
    (h0 : 0 < q) (h1 : (2:ℚ) ^ e ≤ q) (h2 : q < 2 ^ (e + 1)) (he : e ≤ 52)
    (hn : pyRound (q * 2 ^ (52 - e)) = n) :
    roundDouble q = n / 2 ^ (52 - e) := by
  have hlog : Int.log 2 q = (e : ℤ) := by
    have hle : (e : ℤ) ≤ Int.log 2 q := by
      rw [← Int.zpow_le_iff_le_log (by norm_num) h0]
      rw [zpow_natCast]
      exact_mod_cast h1
    have hlt : Int.log 2 q < (e : ℤ) + 1 := by
      rw [← Int.lt_zpow_iff_log_lt (by norm_num) h0]
      have : ((e : ℤ) + 1) = ((e + 1 : ℕ) : ℤ) := by push_cast; ring
      rw [this, zpow_natCast]
      exact_mod_cast h2
    omega
  unfold roundDouble
  rw [if_neg (ne_of_gt h0), if_neg (not_lt.mpr h0.le), one_mul,
    abs_of_pos h0, hlog]
  have hscale : (2 : ℚ) ^ ((e : ℤ) - 52) = ((2 : ℚ) ^ (52 - e))⁻¹ := by
    rw [show (e : ℤ) - 52 = -(((52 - e : ℕ) : ℤ)) by omega, zpow_neg,
      zpow_natCast]
  rw [hscale, div_inv_eq_mul, hn, ← div_eq_mul_inv]

/-- `roundDouble` is exact on integers of at most 53 bits. -/
theorem roundDouble_int_eq (w : ℤ) (e : ℕ)
    (h0 : 0 < (w : ℚ)) (h1 : (2:ℚ) ^ e ≤ (w : ℚ)) (h2 : (w : ℚ) < 2 ^ (e + 1))
    (he : e ≤ 52) :
    roundDouble (w : ℚ) = w := by
  have hn : pyRound ((w : ℚ) * 2 ^ (52 - e)) = w * 2 ^ (52 - e) := by
    have hcast : ((w : ℚ) * 2 ^ (52 - e)) = ((w * 2 ^ (52 - e) : ℤ) : ℚ) := by
      push_cast
      ring
    rw [hcast, pyRound_intCast]
  rw [roundDouble_eq_concrete (w : ℚ) e (w * 2 ^ (52 - e)) h0 h1 h2 he hn]
  push_cast
  rw [mul_div_assoc, div_self (by positivity), mul_one]

theorem score_dimension_def (s : String) (w : ℤ) :
    score_dimension s w =
      pyRound (roundDouble (roundDouble (w : ℚ) * ((dget CONFIDENCE_MULTIPLIERS
        (pyLower (pyStrip (if s = "" then "none" else s)))).getD 0))) := rfl

theorem score_dimension_high (w : ℤ) :
    score_dimension "high" w =
      pyRound (roundDouble (roundDouble (w : ℚ) * (8106479329266893 / 2 ^ 53))) := rfl

theorem score_dimension_medium (w : ℤ) :
    score_dimension "medium" w =
      pyRound (roundDouble (roundDouble (w : ℚ) * (5854679515581645 / 2 ^ 53))) := rfl

theorem score_dimension_low (w : ℤ) :
    score_dimension "low" w =
      pyRound (roundDouble (roundDouble (w : ℚ) * (3152519739159347 / 2 ^ 53))) := rfl

theorem score_dimension_none (w : ℤ) : score_dimension "none" w = 0 := by
  have h : score_dimension "none" w =
      pyRound (roundDouble (roundDouble (w : ℚ) * 0)) := rfl
  rw [h, mul_zero, roundDouble_zero, pyRound_zero]

/-- Any label that strips-and-lowercases to something outside the table scores 0. -/
theorem score_dimension_unknown (s : String) (w : ℤ)
    (h : pyLower (pyStrip s) ∉ ["high", "medium", "low", "none"]) (hs : s ≠ "") :
    score_dimension s w = 0 := by
  rw [score_dimension_def, if_neg hs]
  have hd : dget CONFIDENCE_MULTIPLIERS (pyLower (pyStrip s)) = none := by
    simp only [List.mem_cons, List.not_mem_nil, or_false, not_or] at h
    obtain ⟨h1, h2, h3, h4⟩ := h
    simp [CONFIDENCE_MULTIPLIERS, dget, Ne.symm h1, Ne.symm h2, Ne.symm h3, Ne.symm h4]
  rw [hd]
  simp [mul_zero, roundDouble_zero, pyRound_zero]

theorem mult_bounds (s : String) :
    0 ≤ (dget CONFIDENCE_MULTIPLIERS s).getD 0 ∧
      (dget CONFIDENCE_MULTIPLIERS s).getD 0 ≤ 8106479329266893 / 2 ^ 53 := by
  simp only [CONFIDENCE_MULTIPLIERS, dget]
  split_ifs <;> norm_num

/-- A single contribution always lies in `[0, max_points]` for a
non-negative weight, whatever the confidence string is: the multipliers are
at most `0.9(1+2^-53)^2 < 1` away from shrinking, so neither rounding can
push the contribution past the weight. -/
theorem score_dimension_bounds (s : String) (w : ℤ) (hw : 0 ≤ w) :
    0 ≤ score_dimension s w ∧ score_dimension s w ≤ w := by
  rw [score_dimension_def]
  set m : ℚ := (dget CONFIDENCE_MULTIPLIERS
    (pyLower (pyStrip (if s = "" then "none" else s)))).getD 0 with hm
  obtain ⟨hm0, hm9⟩ := mult_bounds (pyLower (pyStrip (if s = "" then "none" else s)))
  rw [← hm] at hm0 hm9
  have hwq : (0 : ℚ) ≤ (w : ℚ) := by exact_mod_cast hw
  have hwf0 : 0 ≤ roundDouble (w : ℚ) := roundDouble_nonneg _ hwq
  have hp0 : 0 ≤ roundDouble (roundDouble (w : ℚ) * m) :=
    roundDouble_nonneg _ (mul_nonneg hwf0 hm0)
  refine ⟨pyRound_nonneg _ hp0, ?_⟩
  have hple : roundDouble (roundDouble (w : ℚ) * m) ≤ (w : ℚ) := by
    rcases eq_or_lt_of_le hwq with h0 | h0
    · rw [← h0, roundDouble_zero, zero_mul, roundDouble_zero]
    · have hwf_le : roundDouble (w : ℚ) ≤ (w : ℚ) * (1 + 1/2 ^ 53) :=
        roundDouble_le _ h0
      rcases eq_or_lt_of_le (mul_nonneg hwf0 hm0) with hz | hz
      · rw [← hz, roundDouble_zero]
        exact hwq
      · have hp_le : roundDouble (roundDouble (w : ℚ) * m) ≤
            (roundDouble (w : ℚ) * m) * (1 + 1/2 ^ 53) := roundDouble_le _ hz
        have h1 : roundDouble (w : ℚ) * m ≤
            ((w : ℚ) * (1 + 1/2 ^ 53)) * (8106479329266893 / 2 ^ 53) :=
          mul_le_mul hwf_le hm9 hm0 (by positivity)
        have h2 : (roundDouble (w : ℚ) * m) * (1 + 1/2 ^ 53) ≤
            ((w : ℚ) * (1 + 1/2 ^ 53)) * (8106479329266893 / 2 ^ 53) *
              (1 + 1/2 ^ 53) :=
          mul_le_mul_of_nonneg_right h1 (by positivity)
        have h3 : ((w : ℚ) * (1 + 1/2 ^ 53)) * (8106479329266893 / 2 ^ 53) *
            (1 + 1/2 ^ 53) = (w : ℚ) *
              ((1 + 1/2 ^ 53) * (8106479329266893 / 2 ^ 53) * (1 + 1/2 ^ 53)) := by
          ring
        have h4 : (1 + 1/2 ^ 53) * ((8106479329266893 : ℚ) / 2 ^ 53) *
            (1 + 1/2 ^ 53) ≤ 1 := by norm_num
        have h5 : (w : ℚ) *
            ((1 + 1/2 ^ 53) * (8106479329266893 / 2 ^ 53) * (1 + 1/2 ^ 53)) ≤
            (w : ℚ) * 1 := mul_le_mul_of_nonneg_left h4 hwq
        calc roundDouble (roundDouble (w : ℚ) * m) ≤
            (roundDouble (w : ℚ) * m) * (1 + 1/2 ^ 53) := hp_le
          _ ≤ (w : ℚ) *
              ((1 + 1/2 ^ 53) * (8106479329266893 / 2 ^ 53) * (1 + 1/2 ^ 53)) := by
              rw [← h3]; exact h2
          _ ≤ (w : ℚ) * 1 := h5
          _ = (w : ℚ) := mul_one _
  calc pyRound (roundDouble (roundDouble (w : ℚ) * m)) ≤
      ⌈roundDouble (roundDouble (w : ℚ) * m)⌉ := pyRound_le_ceil _
    _ ≤ w := by
        rw [Int.ceil_le]
        exact hple

theorem score_total_bounds (b : List (String × ℤ)) :
    0 ≤ score_total b ∧ score_total b ≤ 100 := by
  unfold score_total
  constructor
  · exact le_max_left _ _
  · exact max_le (by norm_num) (min_le_left _ _)

/-! ### `techbankai/backend/src/services/weighting_v2.py` — the Weight Assignor -/

/-- `assign_equal_weights(dimension_ids)`: filter blank ids, give every id the
base weight `100 // n` (a dict comprehension), then add one point to each of
the lexicographically first `remainder` ids. -/
def assign_equal_weights (dimension_ids : List String) : List (String × ℕ) :=
  let ids := dimension_ids.filter (fun d => pyStrip d ≠ "")
  if ids.isEmpty then []
  else
    let n := ids.length
    let base := 100 / n
    let remainder := 100 - base * n
    let weights := ids.foldl (fun m d => dset m d base) []
    ((ids.insertionSort (· ≤ ·)).take remainder).foldl dincr weights

theorem foldl_dset_fresh (base : ℕ) :
    ∀ (ids : List String) (m : List (String × ℕ)), ids.Nodup →
      (∀ d ∈ ids, d ∉ m.map Prod.fst) →
      ids.foldl (fun m d => dset m d base) m = m ++ ids.map (fun d => (d, base))
  | [], m, _, _ => by simp
  | a :: t, m, hnd, hfr => by
    have ha : a ∉ m.map Prod.fst := hfr a (by simp)
    have hnd' : t.Nodup := (List.nodup_cons.mp hnd).2
    have hna : a ∉ t := (List.nodup_cons.mp hnd).1
    have hfr' : ∀ d ∈ t, d ∉ (m ++ [(a, base)]).map Prod.fst := by
      intro d hd
      simp only [List.map_append, List.mem_append] at *
      push_neg
      refine ⟨hfr d (by simp [hd]), ?_⟩
      simp only [List.map_cons, List.map_nil, List.mem_cons, List.not_mem_nil]
      rintro (h | h)
      · exact hna (h ▸ hd)
      · exact h
    calc (a :: t).foldl (fun m d => dset m d base) m
        = t.foldl (fun m d => dset m d base) (dset m a base) := rfl
      _ = t.foldl (fun m d => dset m d base) (m ++ [(a, base)]) := by
          rw [dset_absent m a base ha]
      _ = (m ++ [(a, base)]) ++ t.map (fun d => (d, base)) :=
          foldl_dset_fresh base t (m ++ [(a, base)]) hnd' hfr'
      _ = m ++ (a :: t).map (fun d => (d, base)) := by simp

theorem dget_foldl_dincr (l : List String) :
    ∀ (m : List (String × ℕ)) (k : String),
      dget (l.foldl dincr m) k = (dget m k).map (· + l.count k) := by
  induction l with
  | nil => intro m k; cases h : dget m k <;> simp [h]
  | cons a t ih =>
    intro m k
    have hstep : (a :: t).foldl dincr m = t.foldl dincr (dincr m a) := rfl
    rw [hstep, ih, dget_dincr]
    by_cases h : k = a
    · subst h
      cases h2 : dget m k <;>
        simp [h2, List.count_cons, Nat.add_comm, Nat.add_assoc, Nat.add_left_comm]
    · cases h2 : dget m k <;> simp [h2, List.count_cons, h]

theorem keys_foldl_dincr (l : List String) :
    ∀ m : List (String × ℕ), (l.foldl dincr m).map Prod.fst = m.map Prod.fst := by
  induction l with
  | nil => intro m; rfl
  | cons a t ih =>
    intro m
    have : (a :: t).foldl dincr m = t.foldl dincr (dincr m a) := rfl
    rw [this, ih, keys_dincr]

theorem vsum_foldl_dincr (l : List String) :
    ∀ m : List (String × ℕ), (∀ k ∈ l, k ∈ m.map Prod.fst) →
      ((l.foldl dincr m).map Prod.snd).sum = (m.map Prod.snd).sum + l.length := by
  induction l with
  | nil => intro m _; simp
  | cons a t ih =>
    intro m h
    have hstep : (a :: t).foldl dincr m = t.foldl dincr (dincr m a) := rfl
    have hmem : ∀ k ∈ t, k ∈ (dincr m a).map Prod.fst := by
      intro k hk; rw [keys_dincr]; exact h k (by simp [hk])
    rw [hstep, ih (dincr m a) hmem, vsum_dincr m a (h a (by simp))]
    simp [Nat.add_comm, Nat.add_assoc, Nat.add_left_comm]

theorem dget_map_const (base : ℕ) :
    ∀ (ids : List String) (d : String),
      dget (ids.map (fun d => (d, base))) d = if d ∈ ids then some base else none
  | [], d => by simp [dget]
  | a :: t, d => by
    by_cases h : a = d
    · subst h; simp [dget]
    · have h' : ¬d = a := fun hh => h hh.symm
      simp [dget, h, h', dget_map_const base t d]

theorem assign_equal_weights_eq (ids : List String)
    (hne : ids ≠ []) (hclean : ∀ d ∈ ids, pyStrip d ≠ "") :
    assign_equal_weights ids =
      ((ids.insertionSort (· ≤ ·)).take (100 % ids.length)).foldl dincr
        (ids.foldl (fun m d => dset m d (100 / ids.length)) []) := by
  unfold assign_equal_weights
  have hf : ids.filter (fun d => pyStrip d ≠ "") = ids := by
    rw [List.filter_eq_self]
    intro a ha
    simpa using hclean a ha
  rw [hf]
  have hie : ids.isEmpty = false := by
    cases ids with
    | nil => exact absurd rfl hne
    | cons a t => rfl
  have hdm : 100 / ids.length * ids.length + 100 % ids.length = 100 := by
    rw [Nat.mul_comm]
    exact Nat.div_add_mod 100 ids.length
  have hrem : 100 - 100 / ids.length * ids.length = 100 % ids.length := by omega
  dsimp only
  rw [hie, hrem]
  simp

theorem assign_equal_weights_sum (ids : List String) (hnd : ids.Nodup)
    (hne : ids ≠ []) (hclean : ∀ d ∈ ids, pyStrip d ≠ "") :
    ((assign_equal_weights ids).map Prod.snd).sum = 100 := by
  rw [assign_equal_weights_eq ids hne hclean,
    foldl_dset_fresh (100 / ids.length) ids [] hnd (by simp), List.nil_append]
  have hmem : ∀ k ∈ (ids.insertionSort (· ≤ ·)).take (100 % ids.length),
      k ∈ (ids.map (fun d => (d, 100 / ids.length))).map Prod.fst := by
    intro k hk
    have h1 : k ∈ ids.insertionSort (· ≤ ·) := List.mem_of_mem_take hk
    have h2 : k ∈ ids := (List.perm_insertionSort (· ≤ ·) ids).subset h1
    simp [List.map_map, Function.comp_def]
    exact h2
  rw [vsum_foldl_dincr _ _ hmem]
  have hbase : ((ids.map (fun d => (d, 100 / ids.length))).map Prod.snd).sum =
      ids.length * (100 / ids.length) := by
    rw [List.map_map]
    have : (Prod.snd ∘ fun d => (d, 100 / ids.length)) =
        Function.const String (100 / ids.length) := rfl
    rw [this, List.map_const]
    simp [List.sum_replicate, Nat.mul_comm]
  rw [hbase]
  have hlen : ((ids.insertionSort (· ≤ ·)).take (100 % ids.length)).length =
      100 % ids.length := by
    rw [List.length_take, List.length_insertionSort]
    have hpos : 0 < ids.length := List.length_pos.mpr hne
    exact Nat.min_eq_left (le_of_lt (Nat.mod_lt 100 hpos))
  rw [hlen]
  have := Nat.div_add_mod 100 ids.length
  omega

theorem assign_equal_weights_dget (ids : List String) (hnd : ids.Nodup)
    (hne : ids ≠ []) (hclean : ∀ d ∈ ids, pyStrip d ≠ "") (d : String) :
    dget (assign_equal_weights ids) d =
      if d ∈ ids then
        some (100 / ids.length +
          if d ∈ (ids.insertionSort (· ≤ ·)).take (100 % ids.length) then 1 else 0)
      else none := by
  rw [assign_equal_weights_eq ids hne hclean,
    foldl_dset_fresh (100 / ids.length) ids [] hnd (by simp), List.nil_append,
    dget_foldl_dincr, dget_map_const]
  have hndtake : ((ids.insertionSort (· ≤ ·)).take (100 % ids.length)).Nodup :=
    ((List.take_sublist _ _).nodup
      (((List.perm_insertionSort (· ≤ ·) ids).nodup_iff).mpr hnd))
  by_cases hd : d ∈ ids
  · rw [if_pos hd, if_pos hd]
    by_cases ht : d ∈ (ids.insertionSort (· ≤ ·)).take (100 % ids.length)
    · rw [if_pos ht]
      rw [List.count_eq_one_of_mem hndtake ht]
      rfl
    · rw [if_neg ht]
      rw [List.count_eq_zero.mpr ht]
      rfl
  · rw [if_neg hd, if_neg hd]
    rfl

/-! ### `techbankai/backend/src/services/openai_service.py` — post-parse
validation of `extract_jd_structure_v2` (selected dimensions projected to
their `dimension_id`; the guardrail logic inspects only the ids). -/

/-- `must_include = ["experience_seniority", "core_technical_skills"]`. -/
def must_include_ids : List String := ["experience_seniority", "core_technical_skills"]

/-- The anchor-insertion loop: each anchor missing from the *original*
`existing_ids` snapshot (and present in the library) is inserted at index 0
of the evolving list. -/
def insert_anchor_dims (allowed existing : List String) : List String :=
  must_include_ids.foldl
    (fun sel dim_id =>
      if dim_id ∉ existing ∧ dim_id ∈ allowed then dim_id :: sel else sel)
    existing

/-- The dedup loop with its `seen` set: keep the first occurrence of each id. -/
def dedupAux (seen : List String) : List String → List String
  | [] => []
  | d :: rest =>
      if d ∈ seen then dedupAux seen rest else d :: dedupAux (d :: seen) rest

def dedupF (l : List String) : List String := dedupAux [] l

/-- The prioritization loop: anchors (in `must_include` order) first, then the
remaining deduplicated dimensions in their original order. -/
def prioritize_anchors (deduped : List String) : List String :=
  must_include_ids.filter (fun a => a ∈ deduped) ++
    deduped.filter (fun d => d ∉ must_include_ids)

/-- The final selected-dimension id list: anchors inserted, deduplicated,
anchors prioritized, truncated to 5. -/
def final_selected_dims (allowed extracted : List String) : List String :=
  (prioritize_anchors (dedupF (insert_anchor_dims allowed extracted))).take 5

/-- The tail of `extract_jd_structure_v2`: build the final list, then raise
`ValueError` when any id used in it is not in the library. -/
def validate_selected_dimension_ids (allowed extracted : List String) :
    Except (List String) (List String) :=
  let final := final_selected_dims allowed extracted
  let unknown := (dedupF (final.filter (fun i => i ∉ allowed))).insertionSort (· ≤ ·)
  if unknown.isEmpty then .ok final else .error unknown

/-- `get_dimension_library()` — the nine backend-owned dimension ids, in
library order (`backend/src/services/dimension_library.py`). -/
def library_ids : List String :=
  ["experience_seniority", "core_technical_skills", "networking_protocols",
   "security_technologies", "cloud_architecture", "incident_operations",
   "compliance_governance", "certifications", "other_relevant"]

theorem mem_dedupAux : ∀ (l seen : List String) (b : String),
    b ∈ dedupAux seen l ↔ b ∈ l ∧ b ∉ seen
  | [], seen, b => by simp [dedupAux]
  | d :: rest, seen, b => by
    by_cases hd : d ∈ seen
    · rw [dedupAux, if_pos hd, mem_dedupAux rest seen b]
      constructor
      · exact fun ⟨h1, h2⟩ => ⟨by simp [h1], h2⟩
      · rintro ⟨h1, h2⟩
        rcases List.mem_cons.mp h1 with h | h
        · exact absurd (h ▸ hd) h2
        · exact ⟨h, h2⟩
    · rw [dedupAux, if_neg hd]
      constructor
      · intro h
        rcases List.mem_cons.mp h with h1 | h1
        · exact ⟨by simp [h1], h1 ▸ hd⟩
        · have := (mem_dedupAux rest (d :: seen) b).mp h1
          exact ⟨by simp [this.1], fun hb => this.2 (by simp [hb])⟩
      · rintro ⟨h1, h2⟩
        rcases List.mem_cons.mp h1 with h | h
        · exact h ▸ List.mem_cons_self _ _
        · by_cases hbd : b = d
          · exact hbd ▸ List.mem_cons_self _ _
          · exact List.mem_cons_of_mem _
              ((mem_dedupAux rest (d :: seen) b).mpr
                ⟨h, by simp [hbd, h2]⟩)

theorem mem_dedupF (l : List String) (b : String) : b ∈ dedupF l ↔ b ∈ l := by
  rw [dedupF, mem_dedupAux]
  simp

theorem nodup_dedupAux : ∀ (l seen : List String), (dedupAux seen l).Nodup
  | [], seen => by simp [dedupAux]
  | d :: rest, seen => by
    by_cases hd : d ∈ seen
    · rw [dedupAux, if_pos hd]
      exact nodup_dedupAux rest seen
    · rw [dedupAux, if_neg hd]
      refine List.nodup_cons.mpr ⟨?_, nodup_dedupAux rest (d :: seen)⟩
      intro hmem
      exact ((mem_dedupAux rest (d :: seen) d).mp hmem).2 (by simp)

theorem nodup_dedupF (l : List String) : (dedupF l).Nodup := nodup_dedupAux l []

theorem dedupAux_sublist : ∀ (l seen : List String), (dedupAux seen l).Sublist l
  | [], seen => by simp [dedupAux]
  | d :: rest, seen => by
    by_cases hd : d ∈ seen
    · rw [dedupAux, if_pos hd]
      exact (dedupAux_sublist rest seen).cons d
    · rw [dedupAux, if_neg hd]
      exact (dedupAux_sublist rest (d :: seen)).cons₂ d

theorem dedupF_sublist (l : List String) : (dedupF l).Sublist l := dedupAux_sublist l []

theorem sort_dedup_empty_iff (f : List String) :
    ((dedupF f).insertionSort (· ≤ ·)).isEmpty = true ↔ f = [] := by
  rw [List.isEmpty_iff]
  constructor
  · intro h
    have hperm : List.Perm ((dedupF f).insertionSort (· ≤ ·)) (dedupF f) :=
      List.perm_insertionSort _ _
    rw [h] at hperm
    have hd : dedupF f = [] := hperm.symm.eq_nil
    rw [List.eq_nil_iff_forall_not_mem]
    intro a ha
    have : a ∈ dedupF f := (mem_dedupF f a).mpr ha
    rw [hd] at this
    simp at this
  · intro h
    subst h
    rfl

theorem validate_cases (allowed extracted : List String) :
    (validate_selected_dimension_ids allowed extracted =
        .ok (final_selected_dims allowed extracted) ∧
      ∀ d ∈ final_selected_dims allowed extracted, d ∈ allowed) ∨
    ((∃ u, validate_selected_dimension_ids allowed extracted = .error u) ∧
      ∃ d ∈ final_selected_dims allowed extracted, d ∉ allowed) := by
  unfold validate_selected_dimension_ids
  set final := final_selected_dims allowed extracted with hfinal
  by_cases h : ((dedupF (final.filter (fun i => i ∉ allowed))).insertionSort
      (· ≤ ·)).isEmpty = true
  · left
    have hnil : final.filter (fun i => i ∉ allowed) = [] :=
      (sort_dedup_empty_iff _).mp h
    refine ⟨by rw [if_pos h], ?_⟩
    intro d hd
    by_contra hna
    have : d ∈ final.filter (fun i => i ∉ allowed) :=
      List.mem_filter.mpr ⟨hd, by simpa using hna⟩
    rw [hnil] at this
    simp at this
  · right
    have hne : final.filter (fun i => i ∉ allowed) ≠ [] := by
      intro hc
      exact h ((sort_dedup_empty_iff _).mpr hc)
    refine ⟨⟨_, by rw [if_neg h]⟩, ?_⟩
    obtain ⟨d, hd⟩ := List.exists_mem_of_ne_nil _ hne
    have := List.mem_filter.mp hd
    exact ⟨d, this.1, by simpa using this.2⟩

theorem validate_ok_val (allowed extracted res : List String)
    (h : validate_selected_dimension_ids allowed extracted = .ok res) :
    res = final_selected_dims allowed extracted := by
  unfold validate_selected_dimension_ids at h
  by_cases hc : ((dedupF ((final_selected_dims allowed extracted).filter
      (fun i => i ∉ allowed))).insertionSort (· ≤ ·)).isEmpty = true
  · rw [if_pos hc] at h
    exact (Except.ok.inj h).symm
  · rw [if_neg hc] at h
    exact absurd h (by simp)

theorem mem_insert_anchor (allowed existing : List String) :
    ("experience_seniority" ∈ allowed →
        "experience_seniority" ∈ insert_anchor_dims allowed existing) ∧
    ("core_technical_skills" ∈ allowed →
        "core_technical_skills" ∈ insert_anchor_dims allowed existing) := by
  simp only [insert_anchor_dims, must_include_ids, List.foldl_cons, List.foldl_nil]
  constructor <;> intro h <;> split_ifs with h1 h2 <;>
    simp_all [List.mem_cons]

theorem prioritize_eq_of_anchors (deduped : List String)
    (h1 : "experience_seniority" ∈ deduped)
    (h2 : "core_technical_skills" ∈ deduped) :
    prioritize_anchors deduped = "experience_seniority" :: "core_technical_skills" ::
      deduped.filter (fun d => d ∉ must_include_ids) := by
  unfold prioritize_anchors
  simp [must_include_ids, h1, h2]

theorem nodup_prioritize (deduped : List String) (hnd : deduped.Nodup) :
    (prioritize_anchors deduped).Nodup := by
  unfold prioritize_anchors
  rw [List.nodup_append]
  refine ⟨?_, hnd.filter _, ?_⟩
  · exact (by decide : must_include_ids.Nodup).filter _
  · intro a ha hb
    have h1 : a ∈ must_include_ids := (List.mem_filter.mp ha).1
    have h2 := (List.mem_filter.mp hb).2
    simp at h2
    exact h2 h1

theorem insert_anchor_filter_non_anchor (allowed existing : List String) :
    (insert_anchor_dims allowed existing).filter (fun d => d ∉ must_include_ids) =
      existing.filter (fun d => d ∉ must_include_ids) := by
  simp only [insert_anchor_dims, must_include_ids, List.foldl_cons, List.foldl_nil]
  split_ifs <;> simp [must_include_ids]

/-! ### `backend/src/routes/jd_analysis.py` — `analyze_jd_v2` (and the
Phase-1 fallback block of the older `analyze_jd`). -/

/-- CPython `list.sort(key=…, reverse=True)`: reverse, stable ascending
sort, reverse again (ties keep their original relative order). -/
def pySortDesc {α : Type} (key : α → ℚ) (l : List α) : List α :=
  (l.reverse.insertionSort (fun a b => key a ≤ key b)).reverse

/-- The per-resume fields Phase-1 reads: the id and `experience_years`. -/
structure P1Resume where
  rid : ℕ
  exp : ℚ
deriving DecidableEq

/-- The Phase-1 loop of `analyze_jd_v2` (lines 701–726): hard experience
filter, then `calculate_traditional_score` (a function of the resume,
abstracted as `score` — `matching_engine.py` is not part of the engine's
deterministic core), kept only when `score >= min_score`. -/
def phase1_prelim_v2 (minExp minScore : ℚ) (score : P1Resume → ℚ)
    (resumes : List P1Resume) : List (P1Resume × ℚ) :=
  resumes.filterMap fun r =>
    if 0 < minExp ∧ r.exp < minExp then none
    else if minScore ≤ score r then some (r, score r) else none

/-- Lines 727–731: sort descending by score; `prelim[:15]` when fewer than 5
passed, else `prelim[:min(len(prelim), 25)]`. -/
def phase1_shortlist_v2 (minExp minScore : ℚ) (score : P1Resume → ℚ)
    (resumes : List P1Resume) : List (P1Resume × ℚ) :=
  let prelim := pySortDesc (fun p => p.2)
    (phase1_prelim_v2 minExp minScore score resumes)
  if prelim.length < 5 then prelim.take 15
  else prelim.take (min prelim.length 25)

/-- The `analyze_jd` (v1) fallback block, lines 215–247: rescore *all*
resumes with no score threshold — but the experience hard filter is applied
again ("same as Phase 1") — and keep the top 15. -/
def phase1_relaxed_v1 (minExp : ℚ) (score : P1Resume → ℚ)
    (resumes : List P1Resume) : List (P1Resume × ℚ) :=
  let all_scored := resumes.filterMap fun r =>
    if 0 < minExp ∧ r.exp < minExp then none else some (r, score r)
  (pySortDesc (fun p => p.2) all_scored).take 15

/-- `JD_MATCH_ENGINE_VERSION = "v2.4"`. -/
def JD_MATCH_ENGINE_VERSION : String := "v2.4"

/-- A `MatchResult` cache row as the v2 cache logic reads it:
`factor_breakdown.get("engine_version")` and `match_score` may be absent. -/
structure MatchRow where
  jd_hash : String
  resume_id : ℕ
  engine_version : Option String
  match_score : Option ℚ
deriving DecidableEq

/-- The cache query (lines 739–744): rows with this structure hash whose
resume id is in the shortlist. -/
def cache_rows_query (rows : List MatchRow) (h : String) (ids : List ℕ) :
    List MatchRow :=
  rows.filter fun m => m.jd_hash = h ∧ m.resume_id ∈ ids

/-- Lines 745–749: `cached_map[m.resume_id] = m` only for rows whose
engine-version tag equals the running engine version. -/
def build_cached_map (cached_list : List MatchRow) : List (ℕ × MatchRow) :=
  cached_list.foldl
    (fun acc m =>
      if m.engine_version = some JD_MATCH_ENGINE_VERSION
      then dset acc m.resume_id m else acc)
    []

/-- `score_one`'s cache check (lines 783–784): a hit needs a `cached_map`
entry *and* a non-null `match_score`; anything else recomputes. -/
def cache_hit (rows : List MatchRow) (h : String) (ids : List ℕ) (rid : ℕ) :
    Option MatchRow :=
  match dget (build_cached_map (cache_rows_query rows h ids)) rid with
  | some m => if m.match_score ≠ none then some m else none
  | none => none

/-- The per-resume result record, reduced to the fields the batch-assembly
loop reads. -/
structure ScoredItem where
  resume_id : ℕ
  total_score : ℤ
  is_cached : Bool
deriving DecidableEq

/-- Lines 908–918: iterate `asyncio.gather(..., return_exceptions=True)`
results; a raised exception is logged and skipped (`continue`), a value is
kept when its total score passes `min_score`. -/
def collect_results (minScore : ℤ) (scored : List (Except String ScoredItem)) :
    List ScoredItem :=
  scored.filterMap fun x =>
    match x with
    | .error _ => none
    | .ok item => if minScore ≤ item.total_score then some item else none

theorem dget_dset_cases {κ β : Type} [DecidableEq κ]
    (m : List (κ × β)) (k k2 : κ) (v : β) :
    dget (dset m k v) k2 = if k2 = k then some v else dget m k2 := by
  by_cases h : k2 = k
  · subst h; rw [if_pos rfl, dget_dset_self]
  · rw [if_neg h, dget_dset_ne m k k2 v h]

theorem mem_collect_results (minScore : ℤ) (scored : List (Except String ScoredItem))
    (it : ScoredItem) :
    it ∈ collect_results minScore scored ↔
      .ok it ∈ scored ∧ minScore ≤ it.total_score := by
  unfold collect_results
  rw [List.mem_filterMap]
  constructor
  · rintro ⟨x, hx, hfx⟩
    cases x with
    | error e => simp at hfx
    | ok item =>
      simp only [] at hfx
      by_cases hsc : minScore ≤ item.total_score
      · rw [if_pos hsc] at hfx
        injection hfx with h
        exact ⟨h ▸ hx, h ▸ hsc⟩
      · rw [if_neg hsc] at hfx
        simp at hfx
  · rintro ⟨hmem, hsc⟩
    exact ⟨.ok it, hmem, by simp [hsc]⟩

/-! ### `backend/src/services/explanation_v2.py` — the Explanation Generator -/

/-- The Python sort key `(kv[1], kv[0])` compared lexicographically:
by contribution value, ties by dimension id. -/
def expKeyLe (a b : String × ℤ) : Prop :=
  a.2 < b.2 ∨ (a.2 = b.2 ∧ a.1 ≤ b.1)

instance : DecidableRel expKeyLe := fun a b => by
  unfold expKeyLe; infer_instance

instance : IsTotal (String × ℤ) expKeyLe := by
  constructor
  intro a b
  rcases lt_trichotomy a.2 b.2 with h | h | h
  · exact Or.inl (Or.inl h)
  · rcases le_total a.1 b.1 with h2 | h2
    · exact Or.inl (Or.inr ⟨h, h2⟩)
    · exact Or.inr (Or.inr ⟨h.symm, h2⟩)
  · exact Or.inr (Or.inl h)

instance : IsTrans (String × ℤ) expKeyLe := by
  constructor
  intro a b c hab hbc
  rcases hab with h1 | ⟨h1, h1'⟩ <;> rcases hbc with h2 | ⟨h2, h2'⟩
  · exact Or.inl (lt_trans h1 h2)
  · exact Or.inl (h2 ▸ h1)
  · exact Or.inl (h1 ▸ h2)
  · exact Or.inr ⟨h1.trans h2, le_trans h1' h2'⟩

/-- `sorted(breakdown.items(), key=lambda kv: (kv[1], kv[0]), reverse=True)`
(CPython `reverse=True`: reverse, stable ascending sort, reverse). -/
def sortDescByScoreKey (l : List (String × ℤ)) : List (String × ℤ) :=
  (l.reverse.insertionSort expKeyLe).reverse

/-- `_top_dimensions(breakdown, top_n=2)`. -/
def top_dimensions (breakdown : List (String × ℤ)) : List String :=
  ((sortDescByScoreKey breakdown).take 2).map Prod.fst

/-- `_lowest_dimension(breakdown)`. -/
def lowest_dimension (breakdown : List (String × ℤ)) : Option String :=
  match breakdown.insertionSort expKeyLe with
  | [] => none
  | p :: _ => some p.1

/-- Python `sep.join(l)`. -/
def pyJoin (sep : String) : List String → String
  | [] => ""
  | [x] => x
  | x :: y :: xs => x ++ sep ++ pyJoin sep (y :: xs)

/-- Python truthiness of an optional string (`None` and `""` are falsy). -/
def truthyStr : Option String → Bool
  | none => false
  | some s => decide (s ≠ "")

/-- Sentence 1 of `build_explanation`. -/
def sentence1 (total_score : ℤ) (breakdown : List (String × ℤ))
    (dimension_labels : List (String × String)) (matched_skills : List String) :
    String :=
  let top_dims := top_dimensions breakdown
  let top_labels := top_dims.map fun d => (dget dimension_labels d).getD d
  let strengths := pyJoin " and " (top_labels.filter fun lbl => lbl ≠ "")
  let strengths_part := if strengths = "" then "key areas" else strengths
  let matched_part :=
    if matched_skills ≠ []
    then " (matched: " ++ pyJoin ", " (matched_skills.take 3) ++ ")"
    else ""
  "Scored " ++ toString total_score ++ "/100 with strongest alignment in " ++
    strengths_part ++ matched_part ++ "."

/-- Sentence 2 of `build_explanation` (`if gap_skill: … elif low_label: …
else: …`, with Python string truthiness).  Note the source's
`low_label = dimension_labels.get(low_dim, low_dim) if low_dim else None`:
the label is looked up only when `low_dim` itself is truthy (not `None` and
not the empty string). -/
def sentence2 (breakdown : List (String × ℤ))
    (dimension_labels : List (String × String)) (missing_skills : List String) :
    String :=
  let gap_skill := missing_skills.head?
  let low_dim := lowest_dimension breakdown
  let low_label : Option String :=
    if truthyStr low_dim then
      low_dim.map fun d => (dget dimension_labels d).getD d
    else none
  if truthyStr gap_skill then
    "Main gap is " ++ gap_skill.getD "" ++
      "; improving this could raise the fit for the role."
  else if truthyStr low_label then
    "Main gap is weaker alignment in " ++ low_label.getD "" ++
      "; more direct evidence could improve the score."
  else "No major gaps detected from the available resume evidence."

/-- `build_explanation(...) = f"{sentence1} {sentence2}"`. -/
def build_explanation (total_score : ℤ) (breakdown : List (String × ℤ))
    (dimension_labels : List (String × String))
    (matched_skills missing_skills : List String) : String :=
  sentence1 total_score breakdown dimension_labels matched_skills ++ " " ++
    sentence2 breakdown dimension_labels missing_skills

/-- `Mentions s sub`: `sub` occurs verbatim inside `s`. -/
def Mentions (s sub : String) : Prop := ∃ a b : String, s = a ++ sub ++ b

theorem str_append_assoc (a b c : String) : a ++ b ++ c = a ++ (b ++ c) := by
  apply String.ext
  simp [String.data_append]

theorem str_append_nil (a : String) : a ++ "" = a := by
  apply String.ext
  simp [String.data_append]

theorem str_nil_append (a : String) : "" ++ a = a := by
  apply String.ext
  simp [String.data_append]

theorem mentions_here (a sub b : String) : Mentions (a ++ sub ++ b) sub := ⟨a, b, rfl⟩

theorem mentions_refl (s : String) : Mentions s s :=
  ⟨"", "", by rw [str_nil_append, str_append_nil]⟩

theorem mentions_left {s t : String} (u : String) (h : Mentions s t) :
    Mentions (s ++ u) t := by
  obtain ⟨a, b, rfl⟩ := h
  exact ⟨a, b ++ u, by rw [str_append_assoc (a ++ t) b u]⟩

theorem mentions_right {s t : String} (u : String) (h : Mentions s t) :
    Mentions (u ++ s) t := by
  obtain ⟨a, b, rfl⟩ := h
  refine ⟨u ++ a, b, ?_⟩
  apply String.ext
  simp [String.data_append]

theorem mentions_empty (s : String) : Mentions s "" :=
  ⟨"", s, by rw [str_nil_append, str_nil_append]⟩

theorem pyJoin_mentions (sep : String) :
    ∀ (l : List String) (x : String), x ∈ l → Mentions (pyJoin sep l) x
  | [], x, hx => by simp at hx
  | [a], x, hx => by
    have : x = a := by simpa using hx
    subst this
    exact mentions_refl x
  | a :: y :: xs, x, hx => by
    rcases List.mem_cons.mp hx with h | h
    · subst h
      exact mentions_left _ (mentions_left _ (mentions_refl x))
    · have ih := pyJoin_mentions sep (y :: xs) x h
      rw [pyJoin, str_append_assoc]
      exact mentions_right a (mentions_right sep ih)

theorem build_cached_map_invariant :
    ∀ (l : List MatchRow) (acc : List (ℕ × MatchRow)) (k : ℕ) (m : MatchRow),
      dget (l.foldl
        (fun acc m =>
          if m.engine_version = some JD_MATCH_ENGINE_VERSION
          then dset acc m.resume_id m else acc) acc) k = some m →
      (m ∈ l ∧ m.engine_version = some JD_MATCH_ENGINE_VERSION ∧ m.resume_id = k) ∨
        dget acc k = some m
  | [], acc, k, m => fun h => Or.inr h
  | a :: t, acc, k, m => by
    intro h
    have hstep : (a :: t).foldl
        (fun acc m =>
          if m.engine_version = some JD_MATCH_ENGINE_VERSION
          then dset acc m.resume_id m else acc) acc =
        t.foldl
          (fun acc m =>
            if m.engine_version = some JD_MATCH_ENGINE_VERSION
            then dset acc m.resume_id m else acc)
          (if a.engine_version = some JD_MATCH_ENGINE_VERSION
           then dset acc a.resume_id a else acc) := rfl
    rw [hstep] at h
    rcases build_cached_map_invariant t _ k m h with h1 | h1
    · exact Or.inl ⟨List.mem_cons_of_mem a h1.1, h1.2⟩
    · by_cases hv : a.engine_version = some JD_MATCH_ENGINE_VERSION
      · rw [if_pos hv, dget_dset_cases] at h1
        by_cases hk : k = a.resume_id
        · rw [if_pos hk] at h1
          injection h1 with h1
          exact Or.inl ⟨by simp [← h1], by rw [← h1]; exact hv, by rw [← h1, hk]⟩
        · rw [if_neg hk] at h1
          exact Or.inr h1
      · rw [if_neg hv] at h1
        exact Or.inr h1

theorem cache_hit_sound (rows : List MatchRow) (h : String) (ids : List ℕ)
    (rid : ℕ) (m : MatchRow) (hh : cache_hit rows h ids rid = some m) :
    m ∈ rows ∧ m.jd_hash = h ∧ m.resume_id = rid ∧
      m.engine_version = some JD_MATCH_ENGINE_VERSION ∧ m.match_score ≠ none := by
  unfold cache_hit at hh
  cases hd : dget (build_cached_map (cache_rows_query rows h ids)) rid with
  | none => rw [hd] at hh; simp at hh
  | some m0 =>
    rw [hd] at hh
    simp only [] at hh
    by_cases hs : m0.match_score ≠ none
    · rw [if_pos hs] at hh
      injection hh with hh
      subst hh
      rcases build_cached_map_invariant _ [] rid m0 hd with h1 | h1
      · have hq := List.mem_filter.mp h1.1
        have hp := of_decide_eq_true hq.2
        exact ⟨hq.1, hp.1, h1.2.2, h1.2.1, hs⟩
      · simp [dget] at h1
    · rw [if_neg hs] at hh
      simp at hh

theorem cache_hit_of_no_version_match (rows : List MatchRow) (h : String)
    (ids : List ℕ) (rid : ℕ)
    (hall : ∀ m ∈ rows, m.jd_hash = h → m.resume_id = rid →
      m.engine_version ≠ some JD_MATCH_ENGINE_VERSION) :
    cache_hit rows h ids rid = none := by
  unfold cache_hit
  cases hd : dget (build_cached_map (cache_rows_query rows h ids)) rid with
  | none => rfl
  | some m0 =>
    exfalso
    rcases build_cached_map_invariant _ [] rid m0 hd with h1 | h1
    · have hq := List.mem_filter.mp h1.1
      have hp := of_decide_eq_true hq.2
      exact hall m0 hq.1 hp.1 h1.2.2 h1.2.1
    · simp [dget] at h1

theorem sorted_sortDescByScoreKey (l : List (String × ℤ)) :
    (sortDescByScoreKey l).Sorted (fun a b => expKeyLe b a) := by
  unfold sortDescByScoreKey
  rw [List.Sorted, List.pairwise_reverse]
  exact List.sorted_insertionSort expKeyLe l.reverse

theorem sortDescByScoreKey_perm (l : List (String × ℤ)) :
    List.Perm (sortDescByScoreKey l) l := by
  unfold sortDescByScoreKey
  have h1 : List.Perm ((l.reverse.insertionSort expKeyLe).reverse)
      (l.reverse.insertionSort expKeyLe) := List.reverse_perm _
  have h2 : List.Perm (l.reverse.insertionSort expKeyLe) l.reverse :=
    List.perm_insertionSort _ _
  exact (h1.trans h2).trans (List.reverse_perm l)

theorem score_dimension_high_60 : score_dimension "high" 60 = 54 := by
  have hw : roundDouble ((60 : ℤ) : ℚ) = ((60 : ℤ) : ℚ) :=
    roundDouble_int_eq 60 5 (by norm_num) (by norm_num) (by norm_num) (by norm_num)
  rw [score_dimension_high, hw]
  have hcast : ((60 : ℤ) : ℚ) * (8106479329266893 / 2 ^ 53) =
      486388759756013580 / 2 ^ 53 := by norm_num
  rw [hcast]
  have hn : pyRound (((486388759756013580 : ℚ) / 2 ^ 53) * 2 ^ (52 - 5)) =
      7599824371187712 := by
    have hx : ((486388759756013580 : ℚ) / 2 ^ 53) * 2 ^ (52 - 5) =
        7599824371187712 + 3/16 := by norm_num
    rw [hx, pyRound_eq_aux]
    norm_num [pyRoundAux]
  rw [roundDouble_eq_concrete _ 5 7599824371187712 (by norm_num) (by norm_num)
    (by norm_num) (by norm_num) hn]
  have hval : ((7599824371187712 : ℤ) : ℚ) / 2 ^ (52 - 5) = ((54 : ℤ) : ℚ) := by
    norm_num
  rw [hval, pyRound_intCast]

theorem score_dimension_medium_40 : score_dimension "medium" 40 = 26 := by
  have hw : roundDouble ((40 : ℤ) : ℚ) = ((40 : ℤ) : ℚ) :=
    roundDouble_int_eq 40 5 (by norm_num) (by norm_num) (by norm_num) (by norm_num)
  rw [score_dimension_medium, hw]
  have hcast : ((40 : ℤ) : ℚ) * (5854679515581645 / 2 ^ 53) =
      234187180623265800 / 2 ^ 53 := by norm_num
  rw [hcast]
  have hn : pyRound (((234187180623265800 : ℚ) / 2 ^ 53) * 2 ^ (52 - 4)) =
      7318349394477056 := by
    have hx : ((234187180623265800 : ℚ) / 2 ^ 53) * 2 ^ (52 - 4) =
        7318349394477056 + 1/4 := by norm_num
    rw [hx, pyRound_eq_aux]
    norm_num [pyRoundAux]
  rw [roundDouble_eq_concrete _ 4 7318349394477056 (by norm_num) (by norm_num)
    (by norm_num) (by norm_num) hn]
  have hval : ((7318349394477056 : ℤ) : ℚ) / 2 ^ (52 - 4) = ((26 : ℤ) : ℚ) := by
    norm_num
  rw [hval, pyRound_intCast]

/-- The divergence the `float` arithmetic forces: `90 * 0.35` is the double
`31.499999999999996…`, so the program scores 31, not `round(31.5) = 32`. -/
theorem score_dimension_low_90 : score_dimension "low" 90 = 31 := by
  have hw : roundDouble ((90 : ℤ) : ℚ) = ((90 : ℤ) : ℚ) :=
    roundDouble_int_eq 90 6 (by norm_num) (by norm_num) (by norm_num) (by norm_num)
  rw [score_dimension_low, hw]
  have hcast : ((90 : ℤ) : ℚ) * (3152519739159347 / 2 ^ 53) =
      283726776524341230 / 2 ^ 53 := by norm_num
  rw [hcast]
  have hn : pyRound (((283726776524341230 : ℚ) / 2 ^ 53) * 2 ^ (52 - 4)) =
      8866461766385663 := by
    have hx : ((283726776524341230 : ℚ) / 2 ^ 53) * 2 ^ (52 - 4) =
        8866461766385663 + 7/16 := by norm_num
    rw [hx, pyRound_eq_aux]
    norm_num [pyRoundAux]
  rw [roundDouble_eq_concrete _ 4 8866461766385663 (by norm_num) (by norm_num)
    (by norm_num) (by norm_num) hn]
  rw [pyRound_eq_aux]
  norm_num [pyRoundAux]

theorem pyRound_close (x y : ℚ) (h : |x - y| < 1) :
    |pyRound x - pyRound y| ≤ 1 := by
  have h1 := pyRound_le_add_half x
  have h2 := pyRound_ge_sub_half x
  have h3 := pyRound_le_add_half y
  have h4 := pyRound_ge_sub_half y
  have habs := abs_lt.mp h
  have hub : ((pyRound x - pyRound y : ℤ) : ℚ) < 2 := by
    push_cast
    linarith [habs.2]
  have hlb : (-2 : ℚ) < ((pyRound x - pyRound y : ℤ) : ℚ) := by
    push_cast
    linarith [habs.1]
  have h5 : (pyRound x - pyRound y : ℤ) < 2 := by exact_mod_cast hub
  have h6 : (-2 : ℤ) < pyRound x - pyRound y := by exact_mod_cast hlb
  rw [abs_le]
  omega

/-- For weights in the engine's 0..100 range, the `float` contribution is
within one point of the exact `round(weight * multiplier)`. -/
theorem score_dimension_near_exact (w : ℤ) (mt me : ℚ)
    (h0 : 0 ≤ w) (h100 : w ≤ 100) (hmt0 : 0 < mt) (hmt1 : mt ≤ 1)
    (_hme0 : 0 ≤ me) (hdiff : |mt - me| ≤ 1/2 ^ 54) :
    |pyRound (roundDouble (roundDouble (w : ℚ) * mt)) - pyRound ((w : ℚ) * me)| ≤ 1 := by
  apply pyRound_close
  have hwq : (0 : ℚ) ≤ (w : ℚ) := by exact_mod_cast h0
  have hwq100 : (w : ℚ) ≤ 100 := by exact_mod_cast h100
  rcases eq_or_lt_of_le hwq with hz | hz
  · rw [← hz, roundDouble_zero, zero_mul, roundDouble_zero, zero_mul, sub_zero,
      abs_zero]
    norm_num
  · set u : ℚ := 1/2 ^ 53 with hu
    have hu0 : 0 ≤ u := by rw [hu]; norm_num
    set wf := roundDouble (w : ℚ) with hwf
    have hwf_ub : wf ≤ (w : ℚ) * (1 + u) := roundDouble_le _ hz
    have hwf_lb : (w : ℚ) * (1 - u) ≤ wf := roundDouble_ge _ hz
    have hwfpos : 0 < wf := by
      have h1 : (0 : ℚ) < (w : ℚ) * (1 - u) := by
        apply mul_pos hz
        rw [hu]
        norm_num
      exact lt_of_lt_of_le h1 hwf_lb
    have hwfle : wf ≤ 101 := by
      have h1 : (w : ℚ) * (1 + u) ≤ 100 * (1 + u) :=
        mul_le_mul_of_nonneg_right hwq100 (by linarith)
      have h2 : (100 : ℚ) * (1 + u) ≤ 101 := by rw [hu]; norm_num
      linarith
    have hprodpos : 0 < wf * mt := mul_pos hwfpos hmt0
    have hwmt : wf * mt ≤ 101 := by
      calc wf * mt ≤ wf * 1 := mul_le_mul_of_nonneg_left hmt1 hwfpos.le
        _ = wf := mul_one _
        _ ≤ 101 := hwfle
    set p := roundDouble (wf * mt) with hp
    have hp_ub : p ≤ (wf * mt) * (1 + u) := roundDouble_le _ hprodpos
    have hp_lb : (wf * mt) * (1 - u) ≤ p := roundDouble_ge _ hprodpos
    have e1 : |p - wf * mt| ≤ 101 * u := by
      rw [abs_le]
      have hr1 : (wf * mt) * (1 + u) = wf * mt + (wf * mt) * u := by ring
      have hr2 : (wf * mt) * (1 - u) = wf * mt - (wf * mt) * u := by ring
      have hmu : (wf * mt) * u ≤ 101 * u := mul_le_mul_of_nonneg_right hwmt hu0
      constructor <;> nlinarith [hp_ub, hp_lb]
    have e2 : |wf * mt - (w : ℚ) * mt| ≤ 100 * u := by
      have hd : |wf - (w : ℚ)| ≤ (w : ℚ) * u := by
        rw [abs_le]
        have hr1 : (w : ℚ) * (1 + u) = (w : ℚ) + (w : ℚ) * u := by ring
        have hr2 : (w : ℚ) * (1 - u) = (w : ℚ) - (w : ℚ) * u := by ring
        constructor <;> linarith
      have hstep : |wf * mt - (w : ℚ) * mt| = |wf - (w : ℚ)| * mt := by
        rw [← sub_mul, abs_mul, abs_of_pos hmt0]
      rw [hstep]
      calc |wf - (w : ℚ)| * mt ≤ ((w : ℚ) * u) * mt :=
          mul_le_mul_of_nonneg_right hd hmt0.le
        _ ≤ ((w : ℚ) * u) * 1 :=
          mul_le_mul_of_nonneg_left hmt1 (by positivity)
        _ = (w : ℚ) * u := mul_one _
        _ ≤ 100 * u := mul_le_mul_of_nonneg_right hwq100 hu0
    have e3 : |(w : ℚ) * mt - (w : ℚ) * me| ≤ 100 * (1/2 ^ 54) := by
      have hstep : |(w : ℚ) * mt - (w : ℚ) * me| = (w : ℚ) * |mt - me| := by
        rw [← mul_sub, abs_mul, abs_of_nonneg hwq]
      rw [hstep]
      calc (w : ℚ) * |mt - me| ≤ (w : ℚ) * (1/2 ^ 54) :=
          mul_le_mul_of_nonneg_left hdiff hwq
        _ ≤ 100 * (1/2 ^ 54) :=
          mul_le_mul_of_nonneg_right hwq100 (by norm_num)
    have t1 : |p - (w : ℚ) * me| ≤
        |p - wf * mt| + |wf * mt - (w : ℚ) * mt| + |(w : ℚ) * mt - (w : ℚ) * me| := by
      calc |p - (w : ℚ) * me| ≤
          |p - (w : ℚ) * mt| + |(w : ℚ) * mt - (w : ℚ) * me| := abs_sub_le _ _ _
        _ ≤ (|p - wf * mt| + |wf * mt - (w : ℚ) * mt|) +
            |(w : ℚ) * mt - (w : ℚ) * me| := by
            have := abs_sub_le p (wf * mt) ((w : ℚ) * mt)
            linarith
    have hfin : 101 * u + 100 * u + 100 * ((1 : ℚ)/2 ^ 54) < 1 := by
      rw [hu]
      norm_num
    have hchain : |p - (w : ℚ) * me| ≤ 101 * u + 100 * u + 100 * ((1 : ℚ)/2 ^ 54) := by
      have hadd : |p - wf * mt| + |wf * mt - (w : ℚ) * mt| +
          |(w : ℚ) * mt - (w : ℚ) * me| ≤
          101 * u + 100 * u + 100 * ((1 : ℚ)/2 ^ 54) :=
        add_le_add (add_le_add e1 e2) e3
      exact le_trans t1 hadd
    exact lt_of_le_of_lt hchain hfin

/-! ## The claims -/

/-- **C1 counterexample.** The original claim says every contribution equals
`round(weight * multiplier)`: at weight 90 with confidence "low" the program
computes `int(round(90 * 0.35))` on the double `31.499999999999996…` and
returns 31, while `round(90 * 0.35)` on exact numbers is `round(31.5) = 32`. -/
theorem C1_counterexample :
    score_breakdown [("G", "low")] [("G", 90)] = [("G", 31)] ∧
    pyRound ((90 : ℚ) * (7/20)) = 32 ∧ (31 : ℤ) ≠ 32 := by
  refine ⟨?_, ?_, by decide⟩
  · have h : score_breakdown [("G", "low")] [("G", 90)] =
        [("G", score_dimension "low" 90)] := rfl
    rw [h, score_dimension_low_90]
  · have hx : (90 : ℚ) * (7/20) = 31 + 1/2 := by norm_num
    rw [hx, pyRound_eq_aux]
    norm_num [pyRoundAux]

/-- **C1 (amended).** The Deterministic Scorer is a pure deterministic
function: repeated evaluation returns identical results; each per-dimension
contribution is Python's `round` of the 64-bit `float` product
`weight * multiplier` with the locked table high=0.90, medium=0.65, low=0.35,
none=0.00 (the `float` value can differ from exact `round(weight*multiplier)`
by at most one point for weights in 0..100, e.g. 31 instead of 32 at
weight 90, "low"); for weights A=60, B=40 with confidences A="high",
B="medium" the breakdown is A=54, B=26 with total 80, as claimed. -/
theorem C1_scorer_amended
    (cm : List (String × String)) (wm : List (String × ℤ))
    (d : String) (w : ℤ) (hdw : (d, w) ∈ wm) :
    (score_breakdown cm wm = score_breakdown cm wm ∧
      score_total (score_breakdown cm wm) = score_total (score_breakdown cm wm)) ∧
    ((dget cm d).getD "none" = "high" →
      (d, pyRound (roundDouble (roundDouble (w : ℚ) *
        (8106479329266893 / 2 ^ 53)))) ∈ score_breakdown cm wm) ∧
    ((dget cm d).getD "none" = "medium" →
      (d, pyRound (roundDouble (roundDouble (w : ℚ) *
        (5854679515581645 / 2 ^ 53)))) ∈ score_breakdown cm wm) ∧
    ((dget cm d).getD "none" = "low" →
      (d, pyRound (roundDouble (roundDouble (w : ℚ) *
        (3152519739159347 / 2 ^ 53)))) ∈ score_breakdown cm wm) ∧
    ((dget cm d).getD "none" = "none" → (d, 0) ∈ score_breakdown cm wm) ∧
    (0 ≤ w → w ≤ 100 →
      |score_dimension "high" w - pyRound ((w : ℚ) * (9/10))| ≤ 1 ∧
      |score_dimension "medium" w - pyRound ((w : ℚ) * (13/20))| ≤ 1 ∧
      |score_dimension "low" w - pyRound ((w : ℚ) * (7/20))| ≤ 1) ∧
    (score_breakdown [("A", "high"), ("B", "medium")] [("A", 60), ("B", 40)] =
        [("A", 54), ("B", 26)] ∧
      score_total (score_breakdown [("A", "high"), ("B", "medium")]
        [("A", 60), ("B", 40)]) = 80) := by
  have hmem : ∀ c : String,
      (d, score_dimension c w) =
        (fun p : String × ℤ =>
          (p.1, score_dimension ((dget cm p.1).getD "none") p.2)) (d, w) →
      (d, score_dimension c w) ∈ score_breakdown cm wm := by
    intro c hc
    rw [score_breakdown, hc]
    exact List.mem_map_of_mem _ hdw
  have hbd : score_breakdown [("A", "high"), ("B", "medium")] [("A", 60), ("B", 40)] =
      [("A", score_dimension "high" 60), ("B", score_dimension "medium" 40)] := rfl
  refine ⟨⟨rfl, rfl⟩, ?_, ?_, ?_, ?_, ?_, ?_⟩
  · intro hc
    rw [← score_dimension_high w]
    exact hmem "high" (by dsimp only; rw [hc])
  · intro hc
    rw [← score_dimension_medium w]
    exact hmem "medium" (by dsimp only; rw [hc])
  · intro hc
    rw [← score_dimension_low w]
    exact hmem "low" (by dsimp only; rw [hc])
  · intro hc
    rw [← score_dimension_none w]
    exact hmem "none" (by dsimp only; rw [hc])
  · intro h0 h100
    refine ⟨?_, ?_, ?_⟩
    · rw [score_dimension_high]
      exact score_dimension_near_exact w _ _ h0 h100 (by norm_num) (by norm_num)
        (by norm_num) (abs_le.mpr ⟨by norm_num, by norm_num⟩)
    · rw [score_dimension_medium]
      exact score_dimension_near_exact w _ _ h0 h100 (by norm_num) (by norm_num)
        (by norm_num) (abs_le.mpr ⟨by norm_num, by norm_num⟩)
    · rw [score_dimension_low]
      exact score_dimension_near_exact w _ _ h0 h100 (by norm_num) (by norm_num)
        (by norm_num) (abs_le.mpr ⟨by norm_num, by norm_num⟩)
  · rw [hbd, score_dimension_high_60, score_dimension_medium_40]
    refine ⟨rfl, ?_⟩
    norm_num [score_total]

/-- Witness for the amended C1 at a concrete input. -/
theorem C1_scorer_witness :
    (score_breakdown [("A", "high")] [("A", 60)] =
        score_breakdown [("A", "high")] [("A", 60)] ∧
      score_total (score_breakdown [("A", "high")] [("A", 60)]) =
        score_total (score_breakdown [("A", "high")] [("A", 60)])) ∧
    ((dget [("A", "high")] "A").getD "none" = "high" →
      ("A", pyRound (roundDouble (roundDouble ((60 : ℤ) : ℚ) *
        (8106479329266893 / 2 ^ 53)))) ∈ score_breakdown [("A", "high")] [("A", 60)]) ∧
    ((dget [("A", "high")] "A").getD "none" = "medium" →
      ("A", pyRound (roundDouble (roundDouble ((60 : ℤ) : ℚ) *
        (5854679515581645 / 2 ^ 53)))) ∈ score_breakdown [("A", "high")] [("A", 60)]) ∧
    ((dget [("A", "high")] "A").getD "none" = "low" →
      ("A", pyRound (roundDouble (roundDouble ((60 : ℤ) : ℚ) *
        (3152519739159347 / 2 ^ 53)))) ∈ score_breakdown [("A", "high")] [("A", 60)]) ∧
    ((dget [("A", "high")] "A").getD "none" = "none" →
      ("A", (0 : ℤ)) ∈ score_breakdown [("A", "high")] [("A", 60)]) ∧
    (0 ≤ (60 : ℤ) → (60 : ℤ) ≤ 100 →
      |score_dimension "high" 60 - pyRound (((60 : ℤ) : ℚ) * (9/10))| ≤ 1 ∧
      |score_dimension "medium" 60 - pyRound (((60 : ℤ) : ℚ) * (13/20))| ≤ 1 ∧
      |score_dimension "low" 60 - pyRound (((60 : ℤ) : ℚ) * (7/20))| ≤ 1) ∧
    (score_breakdown [("A", "high"), ("B", "medium")] [("A", 60), ("B", 40)] =
        [("A", 54), ("B", 26)] ∧
      score_total (score_breakdown [("A", "high"), ("B", "medium")]
        [("A", 60), ("B", 40)]) = 80) :=
  C1_scorer_amended [("A", "high")] [("A", 60)] "A" 60 (by simp)

/-- **C7.** For every weight map with non-negative integer weights and every
confidence map, each contribution in the breakdown lies in
`[0, weight_for_that_dimension]` and the total lies in `[0, 100]`. -/
theorem C7_score_clamping (cm : List (String × String)) (wm : List (String × ℤ))
    (hw : ∀ p ∈ wm, 0 ≤ p.2) :
    (∀ q ∈ score_breakdown cm wm, ∃ p ∈ wm, q.1 = p.1 ∧ 0 ≤ q.2 ∧ q.2 ≤ p.2) ∧
    0 ≤ score_total (score_breakdown cm wm) ∧
    score_total (score_breakdown cm wm) ≤ 100 := by
  refine ⟨?_, (score_total_bounds _).1, (score_total_bounds _).2⟩
  intro q hq
  rw [score_breakdown, List.mem_map] at hq
  obtain ⟨p, hp, rfl⟩ := hq
  obtain ⟨h1, h2⟩ := score_dimension_bounds ((dget cm p.1).getD "none") p.2 (hw p hp)
  exact ⟨p, hp, rfl, h1, h2⟩

/-- Witness for C7 at a concrete input. -/
theorem C7_witness :
    (∀ q ∈ score_breakdown [("A", "high")] [("A", 60)],
      ∃ p ∈ [(("A" : String), (60 : ℤ))], q.1 = p.1 ∧ 0 ≤ q.2 ∧ q.2 ≤ p.2) ∧
    0 ≤ score_total (score_breakdown [("A", "high")] [("A", 60)]) ∧
    score_total (score_breakdown [("A", "high")] [("A", 60)]) ≤ 100 :=
  C7_score_clamping [("A", "high")] [("A", 60)] (by simp)

/-- **C10.** The breakdown's key list is exactly the weight map's key list: a
dimension absent from the confidence map scores as "none" (0 points), a
dimension only in the confidence map never appears, and any label that does
not strip-and-lowercase to one of high/medium/low/none contributes 0. -/
theorem C10_breakdown_keys (cm : List (String × String)) (wm : List (String × ℤ)) :
    ((score_breakdown cm wm).map Prod.fst = wm.map Prod.fst) ∧
    (∀ d : String, d ∉ wm.map Prod.fst → d ∉ (score_breakdown cm wm).map Prod.fst) ∧
    (∀ q ∈ score_breakdown cm wm, dget cm q.1 = none → q.2 = 0) ∧
    (∀ (s : String) (w : ℤ), s ≠ "" →
      pyLower (pyStrip s) ∉ ["high", "medium", "low", "none"] →
      score_dimension s w = 0) := by
  have hkeys : (score_breakdown cm wm).map Prod.fst = wm.map Prod.fst := by
    rw [score_breakdown, List.map_map]
    rfl
  refine ⟨hkeys, ?_, ?_, ?_⟩
  · intro d hd
    rw [hkeys]
    exact hd
  · intro q hq hnone
    rw [score_breakdown, List.mem_map] at hq
    obtain ⟨p, hp, rfl⟩ := hq
    simp only [] at hnone ⊢
    rw [hnone]
    exact score_dimension_none p.2
  · intro s w hs hbad
    exact score_dimension_unknown s w hbad hs

/-- **C2.** For a non-empty list of distinct non-blank dimension ids,
`assign_equal_weights` returns integer weights summing to exactly 100: the
base weight is `100 // n` and the lexicographically first `100 % n` ids (in
sorted order) get one extra point; the resulting mapping is identical for any
permutation of the input. -/
theorem C2_assign_weights (ids1 ids2 : List String)
    (hnd : ids1.Nodup) (hne : ids1 ≠ [])
    (hclean : ∀ d ∈ ids1, pyStrip d ≠ "")
    (hperm : List.Perm ids1 ids2) :
    ((assign_equal_weights ids1).map Prod.snd).sum = 100 ∧
    (∀ d ∈ ids1, dget (assign_equal_weights ids1) d =
      some (100 / ids1.length +
        if d ∈ (ids1.insertionSort (· ≤ ·)).take (100 % ids1.length)
        then 1 else 0)) ∧
    (∀ d : String, dget (assign_equal_weights ids2) d =
      dget (assign_equal_weights ids1) d) := by
  have hnd2 : ids2.Nodup := hperm.nodup hnd
  have hne2 : ids2 ≠ [] := by
    intro hc
    rw [hc] at hperm
    exact hne hperm.eq_nil
  have hclean2 : ∀ d ∈ ids2, pyStrip d ≠ "" :=
    fun d hd => hclean d (hperm.mem_iff.mpr hd)
  have hsort : ids1.insertionSort (· ≤ ·) = ids2.insertionSort (· ≤ ·) :=
    List.eq_of_perm_of_sorted
      ((List.perm_insertionSort _ ids1).trans
        (hperm.trans (List.perm_insertionSort _ ids2).symm))
      (List.sorted_insertionSort _ _) (List.sorted_insertionSort _ _)
  have hlen : ids1.length = ids2.length := hperm.length_eq
  refine ⟨assign_equal_weights_sum ids1 hnd hne hclean, ?_, ?_⟩
  · intro d hd
    rw [assign_equal_weights_dget ids1 hnd hne hclean d, if_pos hd]
  · intro d
    rw [assign_equal_weights_dget ids1 hnd hne hclean d,
      assign_equal_weights_dget ids2 hnd2 hne2 hclean2 d, ← hsort, ← hlen]
    by_cases hd : d ∈ ids1
    · rw [if_pos hd, if_pos (hperm.mem_iff.mp hd)]
    · rw [if_neg hd, if_neg (fun hc => hd (hperm.mem_iff.mpr hc))]

/-- Witness for C2 on the id sets of the spec's example. -/
theorem C2_witness :
    ((assign_equal_weights ["x", "y", "z"]).map Prod.snd).sum = 100 ∧
    (∀ d ∈ (["x", "y", "z"] : List String),
      dget (assign_equal_weights ["x", "y", "z"]) d =
        some (100 / (["x", "y", "z"] : List String).length +
          if d ∈ ((["x", "y", "z"] : List String).insertionSort (· ≤ ·)).take
              (100 % (["x", "y", "z"] : List String).length)
          then 1 else 0)) ∧
    (∀ d : String, dget (assign_equal_weights ["z", "x", "y"]) d =
      dget (assign_equal_weights ["x", "y", "z"]) d) :=
  C2_assign_weights ["x", "y", "z"] ["z", "x", "y"]
    (by decide) (by decide) (by decide) (by decide)

/-- **C3 counterexample.** An LLM structure referencing the unknown id
`"made_up_dimension"` is *accepted* (no error): after the two anchors are
forced in front, the unknown id sits at position 6 and the cap at 5 silently
drops it before the library check runs. -/
theorem C3_counterexample :
    "made_up_dimension" ∈ (["networking_protocols", "security_technologies",
        "cloud_architecture", "made_up_dimension"] : List String) ∧
    "made_up_dimension" ∉ library_ids ∧
    validate_selected_dimension_ids library_ids
        ["networking_protocols", "security_technologies",
         "cloud_architecture", "made_up_dimension"] =
      .ok ["experience_seniority", "core_technical_skills",
           "networking_protocols", "security_technologies",
           "cloud_architecture"] := by
  refine ⟨by decide, by decide, ?_⟩
  rfl

/-- **C3 (amended).** The extractor raises a hard error exactly when an
unrecognized dimension id remains among the *final* selected dimensions
(anchors forced in, deduplicated, capped at 5); an unrecognized id pushed out
by the 5-cap is silently dropped instead of failing the request. -/
theorem C3_unknown_dimension_amended (allowed extracted : List String) :
    (∀ res, validate_selected_dimension_ids allowed extracted = .ok res →
      ∀ d ∈ res, d ∈ allowed) ∧
    ((∃ d ∈ final_selected_dims allowed extracted, d ∉ allowed) →
      ∃ u, validate_selected_dimension_ids allowed extracted = .error u) := by
  constructor
  · intro res hres d hd
    have hval := validate_ok_val allowed extracted res hres
    rcases validate_cases allowed extracted with ⟨hok, hall⟩ | ⟨⟨u, herr⟩, hbad⟩
    · exact hall d (hval ▸ hd)
    · rw [herr] at hres
      exact absurd hres (by simp)
  · rintro ⟨d, hd, hna⟩
    rcases validate_cases allowed extracted with ⟨hok, hall⟩ | ⟨⟨u, herr⟩, hbad⟩
    · exact absurd (hall d hd) hna
    · exact ⟨u, herr⟩

/-- **C8.** Every accepted structure has at most 5 selected dimensions, no
duplicate ids, the two anchors `experience_seniority` and
`core_technical_skills` first (in that order), and the remaining entries are
a first-occurrence-preserving subsequence of the extracted non-anchor ids. -/
theorem C8_structure_invariants (extracted res : List String)
    (h : validate_selected_dimension_ids library_ids extracted = .ok res) :
    res.length ≤ 5 ∧ res.Nodup ∧
    res.take 2 = ["experience_seniority", "core_technical_skills"] ∧
    (res.drop 2).Sublist extracted ∧
    (∀ d ∈ res.drop 2, d ∉ must_include_ids) := by
  have hval := validate_ok_val library_ids extracted res h
  subst hval
  have hexp : "experience_seniority" ∈ dedupF (insert_anchor_dims library_ids extracted) :=
    (mem_dedupF _ _).mpr
      ((mem_insert_anchor library_ids extracted).1 (by decide))
  have hcore : "core_technical_skills" ∈ dedupF (insert_anchor_dims library_ids extracted) :=
    (mem_dedupF _ _).mpr
      ((mem_insert_anchor library_ids extracted).2 (by decide))
  have hprio := prioritize_eq_of_anchors _ hexp hcore
  have hfinal : final_selected_dims library_ids extracted =
      "experience_seniority" :: "core_technical_skills" ::
        ((dedupF (insert_anchor_dims library_ids extracted)).filter
          (fun d => d ∉ must_include_ids)).take 3 := by
    rw [final_selected_dims, hprio]
    rfl
  have hrest : ((dedupF (insert_anchor_dims library_ids extracted)).filter
      (fun d => d ∉ must_include_ids)).Sublist extracted := by
    have h1 : ((dedupF (insert_anchor_dims library_ids extracted)).filter
        (fun d => d ∉ must_include_ids)).Sublist
        ((insert_anchor_dims library_ids extracted).filter
          (fun d => d ∉ must_include_ids)) :=
      (dedupF_sublist _).filter _
    rw [insert_anchor_filter_non_anchor] at h1
    exact h1.trans (List.filter_sublist extracted)
  refine ⟨?_, ?_, ?_, ?_, ?_⟩
  · rw [final_selected_dims]
    exact List.length_take_le 5 _
  · rw [final_selected_dims]
    exact (List.take_sublist _ _).nodup (nodup_prioritize _ (nodup_dedupF _))
  · rw [hfinal]
    rfl
  · rw [hfinal]
    exact ((List.take_sublist 3 _).trans hrest)
  · intro d hd
    rw [hfinal] at hd
    have hd2 : d ∈ (dedupF (insert_anchor_dims library_ids extracted)).filter
        (fun d => d ∉ must_include_ids) :=
      List.mem_of_mem_take hd
    simpa using (List.mem_filter.mp hd2).2

/-- Witness for C8: a structure with a duplicated dimension and no anchors. -/
theorem C8_witness :
    (["experience_seniority", "core_technical_skills", "cloud_architecture",
        "networking_protocols"] : List String).length ≤ 5 ∧
    (["experience_seniority", "core_technical_skills", "cloud_architecture",
        "networking_protocols"] : List String).Nodup ∧
    (["experience_seniority", "core_technical_skills", "cloud_architecture",
        "networking_protocols"] : List String).take 2 =
      ["experience_seniority", "core_technical_skills"] ∧
    ((["experience_seniority", "core_technical_skills", "cloud_architecture",
        "networking_protocols"] : List String).drop 2).Sublist
      ["cloud_architecture", "cloud_architecture", "networking_protocols"] ∧
    (∀ d ∈ (["experience_seniority", "core_technical_skills",
        "cloud_architecture", "networking_protocols"] : List String).drop 2,
      d ∉ must_include_ids) :=
  C8_structure_invariants
    ["cloud_architecture", "cloud_architecture", "networking_protocols"]
    ["experience_seniority", "core_technical_skills", "cloud_architecture",
     "networking_protocols"]
    (by rfl)

theorem pySortDesc_perm {α : Type} (key : α → ℚ) (l : List α) :
    List.Perm (pySortDesc key l) l := by
  unfold pySortDesc
  have h1 : List.Perm ((l.reverse.insertionSort (fun a b => key a ≤ key b)).reverse)
      (l.reverse.insertionSort (fun a b => key a ≤ key b)) := List.reverse_perm _
  have h2 : List.Perm (l.reverse.insertionSort (fun a b => key a ≤ key b)) l.reverse :=
    List.perm_insertionSort _ _
  exact (h1.trans h2).trans (List.reverse_perm l)

/-- **C4 counterexample.** A batch where resume 1 scored 80 and resume 2's
evidence extraction raised: the batch result keeps resume 1 (no abort) but
resume 2 is *absent* — it is not given its Phase-1 keyword score. -/
theorem C4_counterexample :
    collect_results 0
        [.ok ⟨1, 80, false⟩, .error "EvidenceFailed"] =
      [⟨1, 80, false⟩] ∧
    (∀ it ∈ collect_results 0
        [.ok ⟨1, 80, false⟩, .error "EvidenceFailed"],
      it.resume_id ≠ 2) := by
  refine ⟨rfl, ?_⟩
  intro it hit
  have : it = ⟨1, 80, false⟩ := by
    have h1 : collect_results 0
        [.ok ⟨1, 80, false⟩, .error "EvidenceFailed"] =
        [(⟨1, 80, false⟩ : ScoredItem)] := rfl
    rw [h1] at hit
    simpa using hit
  rw [this]
  decide

/-- **C4 (amended).** A failed per-resume evidence call neither aborts the
batch nor affects sibling resumes: an item is in the collected batch result
iff its own scoring succeeded and met the threshold. The failed resume is
silently dropped from the ranking rather than falling back to its Phase-1
keyword-only score. -/
theorem C4_evidence_failure_amended (minScore : ℤ)
    (scored : List (Except String ScoredItem)) (it : ScoredItem) :
    it ∈ collect_results minScore scored ↔
      .ok it ∈ scored ∧ minScore ≤ it.total_score :=
  mem_collect_results minScore scored it

/-- **C5 counterexample.** A minimum of 5 years with three high-scoring
candidates of 1–3 years: both the v2 shortlist and the v1 "relaxed" fallback
are empty — the experience hard filter is never relaxed, so the shortlist
*can* be empty because of it. -/
theorem C5_counterexample :
    phase1_shortlist_v2 5 10 (fun _ => 90) [⟨1, 1⟩, ⟨2, 2⟩, ⟨3, 3⟩] = [] ∧
    phase1_relaxed_v1 5 (fun _ => 90) [⟨1, 1⟩, ⟨2, 2⟩, ⟨3, 3⟩] = [] := by
  exact ⟨rfl, rfl⟩

/-- **C5 (amended).** Every shortlisted candidate passes the experience hard
filter (when a positive minimum is set) *and* the `min_score` threshold; when
fewer than 5 candidates pass, the v2 shortlist is exactly those candidates —
the `[:15]` truncation relaxes nothing — and otherwise at most 25 are kept.
The v1 fallback drops the score threshold but still applies the experience
hard filter, so the shortlist may be empty despite high-scoring candidates. -/
theorem C5_phase1_amended (minExp minScore : ℚ) (score : P1Resume → ℚ)
    (resumes : List P1Resume) :
    (∀ p ∈ phase1_shortlist_v2 minExp minScore score resumes,
      (0 < minExp → minExp ≤ p.1.exp) ∧ minScore ≤ p.2 ∧ p.2 = score p.1) ∧
    ((phase1_prelim_v2 minExp minScore score resumes).length < 5 →
      List.Perm (phase1_shortlist_v2 minExp minScore score resumes)
        (phase1_prelim_v2 minExp minScore score resumes)) ∧
    (phase1_shortlist_v2 minExp minScore score resumes).length ≤ 25 ∧
    (∀ p ∈ phase1_relaxed_v1 minExp score resumes,
      0 < minExp → minExp ≤ p.1.exp) := by
  have hperm : List.Perm
      (pySortDesc (fun p : P1Resume × ℚ => p.2)
        (phase1_prelim_v2 minExp minScore score resumes))
      (phase1_prelim_v2 minExp minScore score resumes) :=
    pySortDesc_perm _ _
  have hlen : (pySortDesc (fun p : P1Resume × ℚ => p.2)
      (phase1_prelim_v2 minExp minScore score resumes)).length =
      (phase1_prelim_v2 minExp minScore score resumes).length := hperm.length_eq
  have hmem_prelim : ∀ p ∈ phase1_prelim_v2 minExp minScore score resumes,
      (0 < minExp → minExp ≤ p.1.exp) ∧ minScore ≤ p.2 ∧ p.2 = score p.1 := by
    intro p hp
    rw [phase1_prelim_v2, List.mem_filterMap] at hp
    obtain ⟨r, hr, hfr⟩ := hp
    by_cases hhard : 0 < minExp ∧ r.exp < minExp
    · rw [if_pos hhard] at hfr
      simp at hfr
    · rw [if_neg hhard] at hfr
      by_cases hsc : minScore ≤ score r
      · rw [if_pos hsc] at hfr
        injection hfr with hfr
        subst hfr
        refine ⟨?_, hsc, rfl⟩
        intro hpos
        by_contra hlt
        exact hhard ⟨hpos, lt_of_not_le hlt⟩
      · rw [if_neg hsc] at hfr
        simp at hfr
  refine ⟨?_, ?_, ?_, ?_⟩
  · intro p hp
    rw [phase1_shortlist_v2] at hp
    have hp2 : p ∈ pySortDesc (fun p : P1Resume × ℚ => p.2)
        (phase1_prelim_v2 minExp minScore score resumes) := by
      by_cases hc : (pySortDesc (fun p : P1Resume × ℚ => p.2)
          (phase1_prelim_v2 minExp minScore score resumes)).length < 5
      · rw [if_pos hc] at hp
        exact List.mem_of_mem_take hp
      · rw [if_neg hc] at hp
        exact List.mem_of_mem_take hp
    exact hmem_prelim p (hperm.subset hp2)
  · intro hfew
    rw [phase1_shortlist_v2, if_pos (by rw [hlen]; exact hfew)]
    rw [List.take_of_length_le]
    · exact hperm
    · rw [hlen]; omega
  · rw [phase1_shortlist_v2]
    by_cases hc : (pySortDesc (fun p : P1Resume × ℚ => p.2)
        (phase1_prelim_v2 minExp minScore score resumes)).length < 5
    · rw [if_pos hc]
      exact le_trans (List.length_take_le 15 _) (by omega)
    · rw [if_neg hc]
      exact le_trans (List.length_take_le _ _) (min_le_right _ _)
  · intro p hp
    rw [phase1_relaxed_v1] at hp
    have hp2 := List.mem_of_mem_take hp
    have hp3 := (pySortDesc_perm (fun p : P1Resume × ℚ => p.2) _).subset hp2
    rw [List.mem_filterMap] at hp3
    obtain ⟨r, hr, hfr⟩ := hp3
    by_cases hhard : 0 < minExp ∧ r.exp < minExp
    · rw [if_pos hhard] at hfr
      simp at hfr
    · rw [if_neg hhard] at hfr
      injection hfr with hfr
      subst hfr
      intro hpos
      by_contra hlt
      exact hhard ⟨hpos, lt_of_not_le hlt⟩

/-- **C6.** A cached Match Result whose engine-version tag differs from
`JD_MATCH_ENGINE_VERSION` is never returned as a cache hit: every hit carries
the current version (and matches the queried structure hash and resume id),
and if no row for the pair carries the current version the lookup is a miss,
so the pair is recomputed. -/
theorem C6_cache_version_isolation (rows : List MatchRow) (h : String)
    (ids : List ℕ) (rid : ℕ) :
    (∀ m : MatchRow, cache_hit rows h ids rid = some m →
      m.engine_version = some JD_MATCH_ENGINE_VERSION ∧
      m ∈ rows ∧ m.jd_hash = h ∧ m.resume_id = rid) ∧
    ((∀ m ∈ rows, m.jd_hash = h → m.resume_id = rid →
        m.engine_version ≠ some JD_MATCH_ENGINE_VERSION) →
      cache_hit rows h ids rid = none) := by
  constructor
  · intro m hm
    obtain ⟨h1, h2, h3, h4, h5⟩ := cache_hit_sound rows h ids rid m hm
    exact ⟨h4, h1, h2, h3⟩
  · exact cache_hit_of_no_version_match rows h ids rid

theorem append_ne_empty_left (x u : String) (hx : x ≠ "") : x ++ u ≠ "" := by
  intro h
  apply hx
  have hd := congrArg String.data h
  rw [String.data_append] at hd
  have hx0 : x.data = [] := (List.append_eq_nil.mp hd).1
  apply String.ext
  exact hx0

theorem pyJoin_ne_empty (sep : String) (l : List String)
    (hl : ∀ x ∈ l, x ≠ "") (hne : l ≠ []) : pyJoin sep l ≠ "" := by
  match l with
  | [] => exact absurd rfl hne
  | [x] => exact hl x (by simp)
  | x :: y :: xs =>
    rw [pyJoin]
    exact append_ne_empty_left _ _
      (append_ne_empty_left _ _ (hl x (by simp)))

theorem exists_dot_append (x y z : String) (h : z = y ++ ".") :
    ∃ b, x ++ z = b ++ "." :=
  ⟨x ++ y, by rw [h, ← str_append_assoc]⟩

theorem expKeyLe_refl (a : String × ℤ) : expKeyLe a a := Or.inr ⟨rfl, le_refl _⟩

theorem lowest_dimension_minimal (bd : List (String × ℤ)) (hbd : bd ≠ []) :
    ∃ p : String × ℤ, lowest_dimension bd = some p.1 ∧ p ∈ bd ∧
      ∀ q ∈ bd, expKeyLe p q := by
  have hsp : List.Perm (bd.insertionSort expKeyLe) bd := List.perm_insertionSort _ _
  cases hs : bd.insertionSort expKeyLe with
  | nil =>
    rw [hs] at hsp
    exact absurd hsp.symm.eq_nil hbd
  | cons p rest =>
    have hsorted : (bd.insertionSort expKeyLe).Sorted expKeyLe :=
      List.sorted_insertionSort _ _
    rw [hs] at hsp hsorted
    have hrel := (List.sorted_cons.mp hsorted).1
    refine ⟨p, ?_, hsp.subset (by simp), ?_⟩
    · rw [lowest_dimension, hs]
    · intro q hq
      rcases List.mem_cons.mp (hsp.mem_iff.mpr hq) with h | h
      · exact h ▸ expKeyLe_refl p
      · exact hrel q h

theorem top_dimensions_maximal (bd : List (String × ℤ)) :
    (top_dimensions bd).length = min 2 bd.length ∧
    ∀ p ∈ (sortDescByScoreKey bd).take 2, ∀ q ∈ bd,
      q ∈ (sortDescByScoreKey bd).take 2 ∨ expKeyLe q p := by
  constructor
  · rw [top_dimensions, List.length_map, List.length_take,
      (sortDescByScoreKey_perm bd).length_eq]
  · intro p hp q hq
    have hq2 : q ∈ sortDescByScoreKey bd := (sortDescByScoreKey_perm bd).mem_iff.mpr hq
    rw [← List.take_append_drop 2 (sortDescByScoreKey bd), List.mem_append] at hq2
    rcases hq2 with h | h
    · exact Or.inl h
    · exact Or.inr ((sorted_sortDescByScoreKey bd).rel_of_mem_take_of_mem_drop hp h)

theorem sentence1_mentions_label (t : ℤ) (bd : List (String × ℤ))
    (labels : List (String × String)) (matched : List String) :
    ∀ d ∈ top_dimensions bd,
      Mentions (sentence1 t bd labels matched) ((dget labels d).getD d) := by
  intro d hd
  by_cases hlbl : (dget labels d).getD d = ""
  · rw [hlbl]
    exact mentions_empty _
  · have hmemlab : (dget labels d).getD d ∈
        (top_dimensions bd).map (fun d => (dget labels d).getD d) :=
      List.mem_map_of_mem _ hd
    have hmemfil : (dget labels d).getD d ∈
        ((top_dimensions bd).map (fun d => (dget labels d).getD d)).filter
          (fun lbl => lbl ≠ "") :=
      List.mem_filter.mpr ⟨hmemlab, by simpa using hlbl⟩
    have hjoin := pyJoin_mentions " and " _ _ hmemfil
    have hne2 : pyJoin " and "
        (((top_dimensions bd).map (fun d => (dget labels d).getD d)).filter
          (fun lbl => lbl ≠ "")) ≠ "" := by
      apply pyJoin_ne_empty
      · intro x hx
        simpa using (List.mem_filter.mp hx).2
      · exact List.ne_nil_of_mem hmemfil
    unfold sentence1
    dsimp only
    rw [if_neg hne2]
    exact mentions_left _ (mentions_left _ (mentions_right _ hjoin))

theorem sentence1_mentions_matched (t : ℤ) (bd : List (String × ℤ))
    (labels : List (String × String)) (matched : List String)
    (hm : matched ≠ []) :
    ∀ x ∈ matched.take 3, Mentions (sentence1 t bd labels matched) x := by
  intro x hx
  have hjoin := pyJoin_mentions ", " _ _ hx
  unfold sentence1
  dsimp only
  rw [if_pos hm]
  refine mentions_left "." ?_
  refine mentions_right _ ?_
  rw [str_append_assoc]
  exact mentions_right _ (mentions_left ")" hjoin)

theorem sentence2_mentions_gap (bd : List (String × ℤ))
    (labels : List (String × String)) (missing : List String)
    (hm : missing ≠ []) :
    Mentions (sentence2 bd labels missing) (missing.headD "") := by
  match missing with
  | [] => exact absurd rfl hm
  | g :: rest =>
    by_cases hg : g = ""
    · rw [List.headD_cons, hg]
      exact mentions_empty _
    · have htr : truthyStr (g :: rest).head? = true := by
        rw [List.head?_cons, truthyStr]
        simpa using hg
      unfold sentence2
      dsimp only
      rw [if_pos htr]
      rw [List.headD_cons, List.head?_cons]
      exact mentions_left _ (mentions_right _ (mentions_refl g))

theorem sentence2_mentions_lowest (bd : List (String × ℤ))
    (labels : List (String × String)) (missing : List String)
    (hm : missing = []) (hbd : bd ≠ []) :
    ∃ p : String × ℤ, lowest_dimension bd = some p.1 ∧ p ∈ bd ∧
      (∀ q ∈ bd, expKeyLe p q) ∧
      (p.1 ≠ "" →
        Mentions (sentence2 bd labels missing) ((dget labels p.1).getD p.1)) := by
  obtain ⟨p, hlow, hpmem, hmin⟩ := lowest_dimension_minimal bd hbd
  refine ⟨p, hlow, hpmem, hmin, ?_⟩
  intro hp1
  by_cases hlbl : (dget labels p.1).getD p.1 = ""
  · rw [hlbl]
    exact mentions_empty _
  · have hgap : truthyStr missing.head? = false := by
      rw [hm]
      rfl
    have htrdim : truthyStr (lowest_dimension bd) = true := by
      rw [hlow, truthyStr]
      simpa using hp1
    have hlab : (if truthyStr (lowest_dimension bd) = true then
        (lowest_dimension bd).map (fun d => (dget labels d).getD d)
        else none) = some ((dget labels p.1).getD p.1) := by
      rw [if_pos htrdim, hlow]
      rfl
    have htr : truthyStr (if truthyStr (lowest_dimension bd) = true then
        (lowest_dimension bd).map (fun d => (dget labels d).getD d)
        else none) = true := by
      rw [hlab, truthyStr]
      simpa using hlbl
    unfold sentence2
    dsimp only
    rw [if_neg (by rw [hgap]; simp), if_pos htr, hlab]
    exact mentions_left _ (mentions_right _ (mentions_refl _))

/-- When the minimal dimension's id is the empty string, the truthiness guard
suppresses the weaker-alignment sentence. -/
theorem sentence2_lowest_blank (bd : List (String × ℤ))
    (labels : List (String × String)) (missing : List String)
    (hm : missing = []) (hlow : lowest_dimension bd = some "") :
    sentence2 bd labels missing =
      "No major gaps detected from the available resume evidence." := by
  subst hm
  unfold sentence2
  dsimp only
  rw [hlow]
  rfl

theorem sentence2_no_gaps (bd : List (String × ℤ))
    (labels : List (String × String)) (missing : List String)
    (hm : missing = []) (hbd : bd = []) :
    sentence2 bd labels missing =
      "No major gaps detected from the available resume evidence." := by
  subst hm hbd
  rfl

theorem mentions_iff_infix_data (s t : String) :
    Mentions s t ↔ t.data <:+: s.data := by
  constructor
  · rintro ⟨a, b, rfl⟩
    exact ⟨a.data, b.data, by simp [String.data_append]⟩
  · rintro ⟨u, v, hd⟩
    refine ⟨⟨u⟩, ⟨v⟩, ?_⟩
    apply String.ext
    rw [← hd]
    simp [String.data_append]

/-- **C9 counterexample.** At breakdown `[("", 1)]`, labels
`[("", "Security")]` and no missing skills, the lowest-scoring dimension is
`""` and its label is `"Security"`, but the source's truthiness guard
`... if low_dim else None` makes the program emit the no-gaps sentence, which
does not name that dimension's label. -/
theorem C9_counterexample :
    lowest_dimension [("", 1)] = some "" ∧
    (dget [("", "Security")] "").getD "" = "Security" ∧
    sentence2 [("", 1)] [("", "Security")] [] =
      "No major gaps detected from the available resume evidence." ∧
    ¬ Mentions (sentence2 [("", 1)] [("", "Security")] []) "Security" := by
  refine ⟨rfl, rfl, rfl, ?_⟩
  have hs : sentence2 [("", 1)] [("", "Security")] [] =
      "No major gaps detected from the available resume evidence." := rfl
  rw [hs, mentions_iff_infix_data]
  decide

/-- **C9 (amended).** The Explanation Generator is a pure function producing
exactly two period-terminated sentences: sentence 1 names the top 1–2 scoring
dimensions (selected by the (contribution, id) order, so ties break on the
dimension id) and up to the first 3 matched skills; sentence 2 names the
first missing required skill when any exists, otherwise the lowest-scoring
dimension — provided its id is truthy (non-empty; and an empty label also
falls through) — otherwise states that no major gaps were detected. -/
theorem C9_explanation_amended (t : ℤ) (bd : List (String × ℤ))
    (labels : List (String × String)) (matched missing : List String) :
    (build_explanation t bd labels matched missing =
      sentence1 t bd labels matched ++ " " ++ sentence2 bd labels missing) ∧
    (∃ a, sentence1 t bd labels matched = a ++ ".") ∧
    (∃ b, sentence2 bd labels missing = b ++ ".") ∧
    (∀ d ∈ top_dimensions bd,
      Mentions (sentence1 t bd labels matched) ((dget labels d).getD d)) ∧
    (matched ≠ [] →
      ∀ x ∈ matched.take 3, Mentions (sentence1 t bd labels matched) x) ∧
    ((top_dimensions bd).length = min 2 bd.length) ∧
    (∀ p ∈ (sortDescByScoreKey bd).take 2, ∀ q ∈ bd,
      q ∈ (sortDescByScoreKey bd).take 2 ∨ expKeyLe q p) ∧
    (missing ≠ [] →
      Mentions (sentence2 bd labels missing) (missing.headD "")) ∧
    (missing = [] → bd ≠ [] →
      ∃ p : String × ℤ, lowest_dimension bd = some p.1 ∧ p ∈ bd ∧
        (∀ q ∈ bd, expKeyLe p q) ∧
        (p.1 ≠ "" →
          Mentions (sentence2 bd labels missing) ((dget labels p.1).getD p.1))) ∧
    (missing = [] → lowest_dimension bd = some "" →
      sentence2 bd labels missing =
        "No major gaps detected from the available resume evidence.") ∧
    (missing = [] → bd = [] →
      sentence2 bd labels missing =
        "No major gaps detected from the available resume evidence.") := by
  obtain ⟨hlen, hmax⟩ := top_dimensions_maximal bd
  refine ⟨rfl, ⟨_, rfl⟩, ?_, sentence1_mentions_label t bd labels matched,
    sentence1_mentions_matched t bd labels matched, hlen, hmax,
    sentence2_mentions_gap bd labels missing,
    sentence2_mentions_lowest bd labels missing,
    sentence2_lowest_blank bd labels missing,
    sentence2_no_gaps bd labels missing⟩
  unfold sentence2
  dsimp only
  split_ifs <;>
    first
      | exact exists_dot_append _
          "; improving this could raise the fit for the role" _ rfl
      | exact exists_dot_append _
          "; more direct evidence could improve the score" _ rfl
      | exact ⟨"No major gaps detected from the available resume evidence", rfl⟩

end BankAI
